import Mathlib

/-!
Verification of `src/master/build-rust-manifest.py` (rust-buildbot).

The script assembles a Rust release manifest: it resolves component
versions and build dates, probes S3 for per-target installer archives,
collects their hashes, builds the nested package/target structure and
serializes it to a TOML-like document.

We embed the script shallowly: Python string primitives are modelled as
executable Lean functions on `String`/`List Char`, and the network /
filesystem is an explicit environment record `Env` (the script's
`urllib2` calls and local file reads).  A `none` result of a function
models the corresponding Python exception aborting the run.
-/

namespace RustBuildbot

/-! ### Python string primitives -/

/-- The characters Python's `str.strip()` removes (`' \t\n\r\x0b\x0c'`). -/
def pyIsSpace (c : Char) : Bool :=
  c = ' ' || c = '\t' || c = '\n' || c = '\r' || c = '\x0B' || c = '\x0C'

/-- Python `str.strip()`: drop leading and trailing whitespace. -/
def pyStripList (l : List Char) : List Char :=
  ((l.dropWhile pyIsSpace).reverse.dropWhile pyIsSpace).reverse

/-- Python `str.strip()` on `String`. -/
def pyStrip (s : String) : String :=
  ⟨pyStripList s.data⟩

/-- Split a character list at every occurrence of the separator `c`,
keeping empty pieces, like Python `str.split(sep)` with a one-character
separator.  The result is always non-empty. -/
def splitOnChar (c : Char) : List Char → List (List Char)
  | [] => [[]]
  | x :: xs =>
    match splitOnChar c xs with
    | [] => if x = c then [[], [x]] else [[x]]
    | h :: t => if x = c then [] :: h :: t else (x :: h) :: t

/-- Python `str.split(sep)` for a one-character separator, on `String`. -/
def pySplitChar (c : Char) (s : String) : List String :=
  (splitOnChar c s.data).map (fun l => ⟨l⟩)

/-- One step of Python `str.replace(old, new)` for non-empty `old`:
scan left to right, replacing each (non-overlapping) occurrence.  The
`fuel` argument only drives termination; `fuel = length` suffices since
every step consumes at least one character. -/
def pyReplaceFuel (old new : List Char) : Nat → List Char → List Char
  | _, [] => []
  | 0, l => l
  | fuel + 1, c :: rest =>
    if old.isPrefixOf (c :: rest) then
      new ++ pyReplaceFuel old new fuel (rest.drop (old.length - 1))
    else
      c :: pyReplaceFuel old new fuel rest

/-- Python `str.replace("", new)` intersperses `new` around every
character (`"ab".replace("", "x") = "xaxbx"`). -/
def pyInterleave (new : List Char) : List Char → List Char
  | [] => new
  | c :: rest => new ++ c :: pyInterleave new rest

/-- Python `str.replace(old, new)`. -/
def pyReplace (s old new : String) : String :=
  if old.data.isEmpty then ⟨pyInterleave new.data s.data⟩
  else ⟨pyReplaceFuel old.data new.data s.data.length s.data⟩

/-! ### `parse_short_version` (source lines 267-275)

```python
def parse_short_version(version):
    p = re.compile("^\d*\.\d*\.\d*")
    m = p.match(version)
    if m is None:
        raise Exception("couldn't parse version: " + version)
    v = m.group(0)
    ...
    return v
```

The regex `^\d*\.\d*\.\d*` anchors at the start; each `\d*` is a
(possibly empty) greedy digit run, and since `.` is not a digit the
greedy match never backtracks, so the match is
`takeWhile isDigit ++ "." ++ takeWhile isDigit ++ "." ++ takeWhile isDigit`.
(`m.group(0)` of a successful match is never `None`, so the second
`raise` in the source is dead code.) -/

/-- The match of `^\d*\.\d*\.\d*` against `l`, or `none`: a greedy
digit run, a literal dot, a second greedy digit run, a second literal
dot, then a third greedy digit run. -/
def shortVersionMatch (l : List Char) : Option (List Char) :=
  if (l.dropWhile Char.isDigit).head? = some '.' then
    if ((l.dropWhile Char.isDigit).tail.dropWhile Char.isDigit).head? = some '.' then
      some (l.takeWhile Char.isDigit ++
        '.' :: (l.dropWhile Char.isDigit).tail.takeWhile Char.isDigit ++
        '.' :: ((l.dropWhile Char.isDigit).tail.dropWhile Char.isDigit).tail.takeWhile
                 Char.isDigit)
    else none
  else none

/-- `parse_short_version`: `some` is the returned prefix, `none` the
raised exception. -/
def parse_short_version (version : String) : Option String :=
  (shortVersionMatch version.data).map (fun l => ⟨l⟩)

/-! ### The external world

`urllib2` requests and local file reads are an explicit environment.
A `none` answer of `head`/`fetch` models `urlopen` raising; a `some`
answer carries the HTTP status code (`getcode()`) and, for `fetch`,
the response body.  `read_local` models `os.path.exists` + `open`
(`some` = the file exists with those bytes).  `sha256hex` is the
hashing primitive `hashlib.sha256(buf).hexdigest()`, an external
capability of the script. -/

structure Env where
  head : String → Option Nat
  fetch : String → Option (Nat × String)
  read_local : String → Option (List UInt8)
  sha256hex : List UInt8 → String

/-- A per-(package, target) record of the manifest.  Only the `rust`
umbrella package populates `components`/`extensions`; for the others
the Python dict simply has no such keys, which we model as `[]`
(`dict.get` returns `None`, and the serializer skips the section for
`None` and for an empty list alike).  A component or extension
reference is a `(pkg, target)` pair. -/
structure TargetRecord where
  available : Bool
  url : String
  hash : String
  components : List (String × String) := []
  extensions : List (String × String) := []
deriving DecidableEq

/-- A per-package record: version plus target map (association list in
construction order; the serializer sorts). -/
structure Package where
  version : String
  targets : List (String × TargetRecord)
deriving DecidableEq

/-- The whole manifest (`manifest-version` is the literal `"2"`). -/
structure Manifest where
  date : String
  pkgs : List (String × Package)
deriving DecidableEq

/-! ### `live_package_url` (source lines 428-465)

```python
def live_package_url(name, dist_dir, date, version, target):
    maybe_channel = channel
    if name == "cargo":
        maybe_channel = "nightly"
    if name == "rust-src":
        url1 = s3_addy + "/" + dist_dir + "/" + date + "/rust-src-" + version + ".tar.gz"
        url2 = s3_addy + "/" + dist_dir + "/" + date + "/rust-src-" + maybe_channel + ".tar.gz"
    else:
        url1 = s3_addy + "/" + dist_dir + "/" + date + "/" + name + "-" + version + "-" + target + ".tar.gz"
        url2 = s3_addy + "/" + dist_dir + "/" + date + "/" + name + "-" + maybe_channel + "-" + target + ".tar.gz"
    # HEAD url1; on code 200 return url1; exceptions pass
    # HEAD url2; on code 200 return url2; exceptions pass
    return None
```
The globals `channel` and `s3_addy` are passed explicitly. -/

/-- The two candidate URLs `(url1, url2)`: `url1` version-tagged,
`url2` channel-tagged. -/
def live_candidate_urls (channel s3_addy name dist_dir date version target : String) :
    String × String :=
  let maybe_channel := if name = "cargo" then "nightly" else channel
  if name = "rust-src" then
    (s3_addy ++ "/" ++ dist_dir ++ "/" ++ date ++ "/rust-src-" ++ version ++ ".tar.gz",
     s3_addy ++ "/" ++ dist_dir ++ "/" ++ date ++ "/rust-src-" ++ maybe_channel ++ ".tar.gz")
  else
    (s3_addy ++ "/" ++ dist_dir ++ "/" ++ date ++ "/" ++ name ++ "-" ++ version ++ "-" ++
       target ++ ".tar.gz",
     s3_addy ++ "/" ++ dist_dir ++ "/" ++ date ++ "/" ++ name ++ "-" ++ maybe_channel ++ "-" ++
       target ++ ".tar.gz")

/-- An existence probe succeeds when the HEAD request neither raises
nor returns a status other than 200. -/
def headOk (env : Env) (url : String) : Bool :=
  env.head url = some 200

/-- `live_package_url`: the winning URL or `none` ("not found"). -/
def live_package_url (env : Env) (channel s3_addy name dist_dir date version target : String) :
    Option String :=
  let urls := live_candidate_urls channel s3_addy name dist_dir date version target
  if headOk env urls.1 then some urls.1
  else if headOk env urls.2 then some urls.2
  else none

/-! ### `hash_from_s3_installer` (source lines 468-478) -/

/-- Download `url + ".sha256"` and keep the first 64 characters of the
body; `none` models the fetch raising or a non-200 code raising
`"expected hash not found"`. -/
def hash_from_s3_installer (env : Env) (url : String) : Option String :=
  match env.fetch (url ++ ".sha256") with
  | none => none
  | some (code, body) => if code ≠ 200 then none else some ⟨body.data.take 64⟩

/-! ### `build_package_def_from_archive` (source lines 398-420) -/

/-- The record written on the unavailable path (locator found nothing). -/
def unavailableRecord : TargetRecord :=
  { available := false, url := "", hash := "" }

/-- The per-target loop of `build_package_def_from_archive`.  A `none`
result models `hash_from_s3_installer` raising and aborting the run;
a located URL is rewritten from the query address to the public one
(`url.replace(s3_addy, public_addy)`). -/
def build_target_defs (env : Env) (channel s3_addy public_addy name dist_dir
    archive_date short_version : String) : List String → Option (List (String × TargetRecord))
  | [] => some []
  | target :: rest =>
    match live_package_url env channel s3_addy name dist_dir archive_date short_version target with
    | some url =>
      match hash_from_s3_installer env url with
      | none => none
      | some h =>
        (build_target_defs env channel s3_addy public_addy name dist_dir archive_date
            short_version rest).map
          (fun tl => (target, { available := true, url := pyReplace url s3_addy public_addy,
                                hash := h }) :: tl)
    | none =>
      (build_target_defs env channel s3_addy public_addy name dist_dir archive_date
          short_version rest).map
        (fun tl => (target, unavailableRecord) :: tl)

/-- `build_package_def_from_archive`: definition of a single package
with all its targets. -/
def build_package_def_from_archive (env : Env) (channel s3_addy public_addy name dist_dir
    archive_date version short_version : String) (target_list : List String) : Option Package :=
  (build_target_defs env channel s3_addy public_addy name dist_dir archive_date
      short_version target_list).map
    (fun tl => { version := version, targets := tl })

/-! ### `cargo_date_from_packaging` (source lines 252-264)

```python
def cargo_date_from_packaging(rustc_version):
    response = urllib2.urlopen(cargo_revs)
    ...
    revs = response.read().strip()
    for line in revs.split("\n"):
        values = line.split(":")
        version = values[0].strip()
        date = values[1].strip()
        if version == rustc_version:
            return date
    raise Exception("couldn't find cargo rev for " + rustc_version)
```

The download itself is supplied as `revs_body` (the response body);
`none` models either the `IndexError` raised by `values[1]` on a line
with no `:`, or the final `raise`. -/

/-- The loop over the pairing-table lines. -/
def cargo_revs_scan (rustc_version : String) : List String → Option String
  | [] => none
  | line :: rest =>
    match pySplitChar ':' line with
    | [] => none
    | [_] => none
    | v0 :: v1 :: _ =>
      if pyStrip v0 = rustc_version then some (pyStrip v1)
      else cargo_revs_scan rustc_version rest

/-- `cargo_date_from_packaging`, with the fetched table body made an
argument. -/
def cargo_date_from_packaging (revs_body rustc_version : String) : Option String :=
  cargo_revs_scan rustc_version (pySplitChar '\n' (pyStrip revs_body))

/-- Trimmed text before the first `:` of a pairing-table line
(`values[0].strip()`). -/
def revLineVersion (line : String) : String :=
  pyStrip ((pySplitChar ':' line).headD "")

/-- Trimmed text after the first `:` of a pairing-table line
(`values[1].strip()`). -/
def revLineDate (line : String) : String :=
  pyStrip ((pySplitChar ':' line).getD 1 "")

/-! ### The installer-name scan of `version_from_channel` (lines 206-213)

```python
    installer_name = None
    for line in manifest.split("\n"):
        if line.startswith(component) and line.endswith(".tar.gz"):
            installer_name = line
    if installer_name == None:
        raise Exception(...)
```
`manifest` is `response.read().strip()`. -/

/-- Does a listing line name the component's installer? -/
def installerLineMatch (component line : String) : Bool :=
  component.data.isPrefixOf line.data && ".tar.gz".data.isSuffixOf line.data

/-- The installer name `version_from_channel` extracts from the
listing body (each later matching line overwrites the earlier one). -/
def find_installer_name (component manifest_body : String) : Option String :=
  (pySplitChar '\n' (pyStrip manifest_body)).foldl
    (fun acc line => if installerLineMatch component line then some line else acc) none

/-! ### The platform lists (source lines 54-131) -/

/-- `host_list` (already written sorted in the source). -/
def host_list : List String := [
  "aarch64-unknown-linux-gnu",
  "arm-unknown-linux-gnueabi",
  "arm-unknown-linux-gnueabihf",
  "armv7-unknown-linux-gnueabihf",
  "i686-apple-darwin",
  "i686-pc-windows-gnu",
  "i686-pc-windows-msvc",
  "i686-unknown-linux-gnu",
  "x86_64-apple-darwin",
  "x86_64-pc-windows-gnu",
  "x86_64-pc-windows-msvc",
  "x86_64-unknown-freebsd",
  "x86_64-unknown-linux-gnu",
  "x86_64-unknown-netbsd"]

/-- `target_list`. -/
def target_list : List String := [
  "aarch64-apple-ios",
  "aarch64-linux-android",
  "aarch64-unknown-linux-gnu",
  "arm-linux-androideabi",
  "arm-unknown-linux-gnueabi",
  "arm-unknown-linux-gnueabihf",
  "arm-unknown-linux-musleabi",
  "arm-unknown-linux-musleabihf",
  "armv7-apple-ios",
  "armv7-linux-androideabi",
  "armv7-unknown-linux-gnueabihf",
  "armv7-unknown-linux-musleabihf",
  "armv7s-apple-ios",
  "asmjs-unknown-emscripten",
  "i386-apple-ios",
  "i586-pc-windows-msvc",
  "i586-unknown-linux-gnu",
  "i686-apple-darwin",
  "i686-linux-android",
  "i686-pc-windows-gnu",
  "i686-pc-windows-msvc",
  "i686-unknown-freebsd",
  "i686-unknown-linux-gnu",
  "i686-unknown-linux-musl",
  "mips-unknown-linux-gnu",
  "mips-unknown-linux-musl",
  "mips64-unknown-linux-gnuabi64",
  "mips64el-unknown-linux-gnuabi64",
  "mipsel-unknown-linux-gnu",
  "mipsel-unknown-linux-musl",
  "powerpc-unknown-linux-gnu",
  "powerpc64-unknown-linux-gnu",
  "powerpc64le-unknown-linux-gnu",
  "s390x-unknown-linux-gnu",
  "wasm32-unknown-emscripten",
  "x86_64-apple-darwin",
  "x86_64-apple-ios",
  "x86_64-pc-windows-gnu",
  "x86_64-pc-windows-msvc",
  "x86_64-rumprun-netbsd",
  "x86_64-unknown-freebsd",
  "x86_64-unknown-linux-gnu",
  "x86_64-unknown-linux-musl",
  "x86_64-unknown-netbsd"]

/-- `mingw_list` (windows-gnu platforms needing the extra bundle). -/
def mingw_list : List String := [
  "i686-pc-windows-gnu",
  "x86_64-pc-windows-gnu"]

/-! ### The `rust` umbrella package (source lines 330-383, 482-500) -/

/-- Python's substring test `needle in hay`. -/
def pyIn (needle hay : String) : Bool :=
  decide (needle.data <:+: hay.data)

/-- The required-components list built for a host (lines 331-346):
rustc, rust-std, rust-docs and cargo bound to the host, plus
`rust-mingw` when `"windows" in host and "gnu" in host`. -/
def rust_required_components (host : String) : List (String × String) :=
  (["rustc", "rust-std", "rust-docs", "cargo"].map (fun c => (c, host))) ++
    (if pyIn "windows" host && pyIn "gnu" host then [("rust-mingw", host)] else [])

/-- The extensions list built for a host (lines 348-362): a `rust-std`
entry for every target other than the host, then one `rust-src` entry
bound to `"*"`. -/
def rust_extensions (host : String) : List (String × String) :=
  ((target_list.filter (fun t => t ≠ host)).map (fun t => ("rust-std", t))) ++
    [("rust-src", "*")]

/-- `url_and_hash_of_rust_package` (lines 482-500): the `rust` packages
live on the local disk; `none` models the missing-file soft path. -/
def url_and_hash_of_rust_package (env : Env)
    (channel today public_addy rust_package_dir target rustc_short_version : String) :
    Option (String × String) :=
  let version := if channel = "stable" then rustc_short_version else channel
  let file_name := "rust-" ++ version ++ "-" ++ target ++ ".tar.gz"
  let url := public_addy ++ "/dist/" ++ today ++ "/" ++ file_name
  let local_file := rust_package_dir ++ "/" ++ file_name
  match env.read_local local_file with
  | none => none
  | some buf => some (url, env.sha256hex buf)

/-- The per-host `rust` target record of `build_manifest`
(lines 364-383). -/
def rust_target_pkg (env : Env)
    (channel today public_addy rust_package_dir rustc_short_version host : String) :
    TargetRecord :=
  match url_and_hash_of_rust_package env channel today public_addy rust_package_dir
      host rustc_short_version with
  | none =>
    { available := false, url := "", hash := "",
      components := rust_required_components host, extensions := rust_extensions host }
  | some uh =>
    { available := true, url := uh.1, hash := uh.2,
      components := rust_required_components host, extensions := rust_extensions host }

/-! ### `write_manifest` (source lines 502-546)

```python
def write_manifest(manifest, file_path):
    def quote(value):
        return '"' + str(value).replace('"', r'\"') + '"'
    def bare_key(key):
        if re.match(r"^[a-zA-Z0-9_\-]+$", key):
            return key
        else:
            return quote(key)
    ...
```
Every `f.write` call emits text ending in one `'\n'`; we model the file
contents as the concatenation of those chunks. -/

/-- `value.replace('"', r'\"')`: a backslash inserted before every
double quote (single-character, non-overlapping replace). -/
def escQ : List Char → List Char
  | [] => []
  | c :: rest => if c = '"' then '\\' :: '"' :: escQ rest else c :: escQ rest

/-- The serializer's local `quote`. -/
def quote (value : String) : String :=
  "\"" ++ (⟨escQ value.data⟩ : String) ++ "\""

/-- A character of the class `[a-zA-Z0-9_\-]`. -/
def isBareChar (c : Char) : Bool :=
  ('a' ≤ c && c ≤ 'z') || ('A' ≤ c && c ≤ 'Z') || ('0' ≤ c && c ≤ '9') || c = '_' || c = '-'

/-- Python `re.match(r"^[a-zA-Z0-9_\-]+$", key)` as a Bool: one or more
bare characters.  Python's `$` also matches just before one newline at
the very end of the string, hence the second disjunct. -/
def bareKeyMatch (l : List Char) : Bool :=
  (!l.isEmpty && l.all isBareChar) ||
    (l.getLast? = some '\n' && !l.dropLast.isEmpty && l.dropLast.all isBareChar)

/-- The serializer's local `bare_key`. -/
def bare_key (key : String) : String :=
  if bareKeyMatch key.data then key else quote key

/-- `[pkg.<name>]`. -/
def pkgHeader (name : String) : String :=
  "[pkg." ++ bare_key name ++ "]"

/-- `[pkg.<name>.target.<tgt>]`. -/
def targetHeader (name tgt : String) : String :=
  "[pkg." ++ bare_key name ++ ".target." ++ bare_key tgt ++ "]"

/-- `[[pkg.<name>.target.<tgt>.<section>]]` for the `components` and
`extensions` sections. -/
def listHeader (name tgt section_name : String) : String :=
  "[[pkg." ++ bare_key name ++ ".target." ++ bare_key tgt ++ "." ++ section_name ++ "]]"

/-- The three lines of one component/extension entry. -/
def refLines (name tgt section_name : String) (ref : String × String) : List String :=
  [listHeader name tgt section_name,
   "pkg = " ++ quote ref.1,
   "target = " ++ quote ref.2]

/-- The lines written for one target record (lines 522-546): header,
`available`/`url`/`hash`, a blank line, the component entries, the
extension entries, and a final blank line. -/
def targetRecordLines (name tgt : String) (tp : TargetRecord) : List String :=
  [targetHeader name tgt,
   "available = " ++ (if tp.available then "true" else "false"),
   "url = " ++ quote tp.url,
   "hash = " ++ quote tp.hash,
   ""] ++
  tp.components.flatMap (refLines name tgt "components") ++
  tp.extensions.flatMap (refLines name tgt "extensions") ++
  [""]

/-- Lexicographic `≤` on character lists, as Python compares
strings. -/
def pyStrLeList : List Char → List Char → Bool
  | [], _ => true
  | _ :: _, [] => false
  | c :: cs, d :: ds => if c = d then pyStrLeList cs ds else decide (c < d)

/-- Python string comparison `a <= b`. -/
def pyStrLe (a b : String) : Bool :=
  pyStrLeList a.data b.data

/-- Insert an item into a key-sorted list, before the first item with
a key not smaller than its own. -/
def insertByKey {α : Type} (x : String × α) : List (String × α) → List (String × α)
  | [] => [x]
  | y :: ys => if pyStrLe x.1 y.1 then x :: y :: ys else y :: insertByKey x ys

/-- Python `sorted(d.items())` for a dict keyed by strings: a stable
comparison sort, lexicographically by key (the dict keys are distinct,
so the values never get compared and any stable sort produces the same
list); modelled as insertion sort. -/
def sortedItems {α : Type} : List (String × α) → List (String × α)
  | [] => []
  | x :: xs => insertByKey x (sortedItems xs)

/-- The lines written for one package (lines 517-546). -/
def packageLines (name : String) (pkg : Package) : List String :=
  [pkgHeader name,
   "version = " ++ quote pkg.version,
   ""] ++
  (sortedItems pkg.targets).flatMap (fun it => targetRecordLines name it.1 it.2)

/-- All the lines of the serialized manifest (each `f.write` emits one
of these followed by `'\n'`). -/
def manifestLines (today : String) (m : Manifest) : List String :=
  ["manifest-version = \"2\"",
   "date = " ++ quote today,
   ""] ++
  (sortedItems m.pkgs).flatMap (fun it => packageLines it.1 it.2)

/-- Join lines, terminating each with `'\n'`. -/
def joinLines : List String → String
  | [] => ""
  | l :: rest => l ++ "\n" ++ joinLines rest

/-- `write_manifest`: the text written to the output file.  The global
`today` is passed explicitly (the serializer reads it, not
`manifest["date"]`, which `build_manifest` sets to the same value). -/
def write_manifest (today : String) (m : Manifest) : String :=
  joinLines (manifestLines today m)

/-! ### Re-parsing the serialized document

A reader of the declared format, used to state the round-trip
property: split the document into lines, find the (unique) header of a
package or package/target section, and read the fields on the
following lines.  Quoted values are read back by stripping the
surrounding quotes and undoing the `\"` escaping. -/

/-- Undo `escQ`: a `\` immediately followed by `"` is an escaped
quote. -/
def unescQ : List Char → List Char
  | [] => []
  | [c] => [c]
  | c1 :: c2 :: rest =>
    if c1 = '\\' && c2 = '"' then '"' :: unescQ rest
    else c1 :: unescQ (c2 :: rest)

/-- Read a quoted value token: first character `"`, last character `"`,
unescape what is between. -/
def unquote (s : String) : Option String :=
  match s.data with
  | '"' :: rest =>
    if rest.getLast? = some '"' then some ⟨unescQ rest.dropLast⟩ else none
  | _ => none

/-- Read the line `<label> = "<value>"`. -/
def parseValueLine (label line : String) : Option String :=
  let pfx := label ++ " = "
  if pfx.data.isPrefixOf line.data then unquote ⟨line.data.drop pfx.data.length⟩ else none

/-- Read the line `available = true|false`. -/
def parseAvailableLine (line : String) : Option Bool :=
  if line = "available = true" then some true
  else if line = "available = false" then some false
  else none

/-- Split a document into its lines (it ends with a newline, so the
final piece is empty). -/
def docLines (doc : String) : List String :=
  (splitOnChar '\n' doc.data).map (fun l => ⟨l⟩)

/-- Find the first line equal to `header` and read the
`available`/`url`/`hash` triple on the three lines after it. -/
def readTripleAfter (header : String) : List String → Option (Bool × String × String)
  | [] => none
  | l :: rest =>
    if l = header then
      match rest with
      | la :: lu :: lh :: _ =>
        match parseAvailableLine la, parseValueLine "url" lu, parseValueLine "hash" lh with
        | some av, some u, some h => some (av, u, h)
        | _, _, _ => none
      | _ => none
    else readTripleAfter header rest

/-- Find the first line equal to `header` and read the `version` value
on the line after it. -/
def readVersionAfter (header : String) : List String → Option String
  | [] => none
  | l :: rest =>
    if l = header then
      match rest with
      | lv :: _ => parseValueLine "version" lv
      | _ => none
    else readVersionAfter header rest

/-- Re-parse: the `available`/`url`/`hash` of package `name`, target
`tgt`, as recorded in the serialized document. -/
def parseTargetFields (doc name tgt : String) : Option (Bool × String × String) :=
  readTripleAfter (targetHeader name tgt) (docLines doc)

/-- Re-parse: the version of package `name` recorded in the serialized
document. -/
def parsePackageVersion (doc name : String) : Option String :=
  readVersionAfter (pkgHeader name) (docLines doc)

/-! ## Helper lemmas -/

theorem getLast?_cons_or {α : Type} (a : α) (l : List α) :
    (a :: l).getLast? = l.getLast?.or (some a) := by
  cases l with
  | nil => rfl
  | cons b m =>
    rw [List.getLast?_cons_cons]
    obtain ⟨x, hx⟩ :=
      Option.isSome_iff_exists.mp ((List.getLast?_isSome (l := b :: m)).mpr (by simp))
    rw [hx]
    rfl

theorem foldl_keep_last {α : Type} (p : α → Bool) :
    ∀ (L : List α) (acc : Option α),
      L.foldl (fun a l => if p l then some l else a) acc = ((L.filter p).getLast?).or acc := by
  intro L
  induction L with
  | nil => intro acc; rfl
  | cons l r ih =>
    intro acc
    by_cases h : p l
    · rw [List.foldl_cons, List.filter_cons_of_pos h, if_pos h, ih (some l),
        getLast?_cons_or, Option.or_assoc]
      simp
    · rw [List.foldl_cons, List.filter_cons_of_neg (by simpa using h),
        if_neg (by simpa using h), ih acc]

theorem takeWhile_append_of_all {α : Type} {p : α → Bool} :
    ∀ (a r : List α), a.all p = true → (a ++ r).takeWhile p = a ++ r.takeWhile p := by
  intro a
  induction a with
  | nil => intro r _; rfl
  | cons x xs ih =>
    intro r h
    rw [List.all_cons, Bool.and_eq_true] at h
    rw [List.cons_append, List.takeWhile_cons, if_pos h.1, ih r h.2, List.cons_append]

theorem dropWhile_append_of_all {α : Type} {p : α → Bool} :
    ∀ (a r : List α), a.all p = true → (a ++ r).dropWhile p = r.dropWhile p := by
  intro a
  induction a with
  | nil => intro r _; rfl
  | cons x xs ih =>
    intro r h
    rw [List.all_cons, Bool.and_eq_true] at h
    rw [List.cons_append, List.dropWhile_cons, if_pos h.1, ih r h.2]

theorem all_takeWhile {α : Type} {p : α → Bool} :
    ∀ (l : List α), (l.takeWhile p).all p = true := by
  intro l
  induction l with
  | nil => rfl
  | cons x xs ih =>
    rw [List.takeWhile_cons]
    by_cases h : p x
    · rw [if_pos h, List.all_cons, Bool.and_eq_true]; exact ⟨h, ih⟩
    · rw [if_neg h]; rfl

/-! ## The claims -/

/-- Claim C2: `live_package_url` probes the version-tagged candidate
URL first and returns it when the existence check succeeds; otherwise
it probes the channel-tagged candidate and returns it when that check
succeeds; otherwise it reports not-found (`none`).  In particular a
target whose version-tagged URL does not exist but whose
channel-tagged URL does gets the channel-tagged URL, not `none`. -/
theorem live_package_url_probe_order (env : Env)
    (channel s3_addy name dist_dir date version target : String) :
    (headOk env (live_candidate_urls channel s3_addy name dist_dir date version target).1 = true →
      live_package_url env channel s3_addy name dist_dir date version target =
        some (live_candidate_urls channel s3_addy name dist_dir date version target).1) ∧
    (headOk env (live_candidate_urls channel s3_addy name dist_dir date version target).1 = false →
      headOk env (live_candidate_urls channel s3_addy name dist_dir date version target).2 = true →
      live_package_url env channel s3_addy name dist_dir date version target =
        some (live_candidate_urls channel s3_addy name dist_dir date version target).2) ∧
    (headOk env (live_candidate_urls channel s3_addy name dist_dir date version target).1 = false →
      headOk env (live_candidate_urls channel s3_addy name dist_dir date version target).2 = false →
      live_package_url env channel s3_addy name dist_dir date version target = none) := by
  refine ⟨fun h1 => ?_, fun h1 h2 => ?_, fun h1 h2 => ?_⟩
  · simp [live_package_url, h1]
  · simp [live_package_url, h1, h2]
  · simp [live_package_url, h1, h2]

/-- Claim C3: for every run channel and every target, the
channel-tagged candidate URL built by the artifact locator for the
package-manager component `"cargo"` embeds the literal channel name
`"nightly"` in the filename, whatever `channel` is. -/
theorem cargo_channel_candidate_uses_nightly
    (channel s3_addy dist_dir date version target : String) :
    (live_candidate_urls channel s3_addy "cargo" dist_dir date version target).2 =
      s3_addy ++ "/" ++ dist_dir ++ "/" ++ date ++ "/" ++ "cargo" ++ "-" ++ "nightly" ++ "-" ++
        target ++ ".tar.gz" := by
  rfl

/-- Claim C10: in the installer-name scan of `version_from_channel`,
each matching line overwrites the previous one, so the installer name
used is the LAST line of the listing that both starts with the
component name and ends with `".tar.gz"` — not the first. -/
theorem find_installer_name_last_match (component manifest_body : String) :
    find_installer_name component manifest_body =
      ((pySplitChar '\n' (pyStrip manifest_body)).filter (installerLineMatch component)).getLast? := by
  unfold find_installer_name
  rw [foldl_keep_last]
  cases ((pySplitChar '\n' (pyStrip manifest_body)).filter (installerLineMatch component)).getLast?
  · rfl
  · rfl

/-- Claim C5 (amended): `parse_short_version` succeeds exactly when
the string begins with `⟨digits⟩.⟨digits⟩.` where either digit run may
be EMPTY (the source regex is `^\d*\.\d*\.\d*`), and when the string
does begin with a strict numeric dotted triple it returns that maximal
triple.  The original claim — failure exactly when there is no leading
numeric dotted triple — is refuted by `parse_short_version_cex`. -/
theorem parse_short_version_spec (s : String) :
    ((parse_short_version s).isSome = true ↔
      ∃ a b r, s.data = a ++ '.' :: (b ++ '.' :: r) ∧
        a.all Char.isDigit = true ∧ b.all Char.isDigit = true) ∧
    (∀ a b c r, s.data = a ++ '.' :: (b ++ '.' :: (c ++ r)) →
      a.all Char.isDigit = true → b.all Char.isDigit = true → c.all Char.isDigit = true →
      (r = [] ∨ ∃ x xs, r = x :: xs ∧ x.isDigit = false) →
      parse_short_version s = some ⟨a ++ '.' :: (b ++ '.' :: c)⟩) := by
  have hdot : Char.isDigit '.' = false := by decide
  constructor
  · constructor
    · intro h
      unfold parse_short_version shortVersionMatch at h
      by_cases hc1 : (s.data.dropWhile Char.isDigit).head? = some '.'
      · by_cases hc2 :
            ((s.data.dropWhile Char.isDigit).tail.dropWhile Char.isDigit).head? = some '.'
        · rcases h1 : s.data.dropWhile Char.isDigit with _ | ⟨c1, r1⟩
          · rw [h1] at hc1; simp at hc1
          · rw [h1] at hc1 hc2
            simp only [List.head?_cons, Option.some_inj] at hc1
            subst hc1
            simp only [List.tail_cons] at hc2
            rcases h2 : r1.dropWhile Char.isDigit with _ | ⟨c2, r2⟩
            · rw [h2] at hc2; simp at hc2
            · rw [h2] at hc2
              simp only [List.head?_cons, Option.some_inj] at hc2
              subst hc2
              refine ⟨s.data.takeWhile Char.isDigit, r1.takeWhile Char.isDigit, r2,
                ?_, all_takeWhile _, all_takeWhile _⟩
              have e1 : s.data = s.data.takeWhile Char.isDigit ++ ('.' :: r1) := by
                conv_lhs =>
                  rw [← List.takeWhile_append_dropWhile (p := Char.isDigit) (l := s.data)]
                rw [h1]
              have e2 : r1 = r1.takeWhile Char.isDigit ++ ('.' :: r2) := by
                conv_lhs =>
                  rw [← List.takeWhile_append_dropWhile (p := Char.isDigit) (l := r1)]
                rw [h2]
              conv_lhs => rw [e1]
              conv_lhs => rw [e2]
        · rw [if_neg hc2] at h
          simp [hc1] at h
      · rw [if_neg hc1] at h
        simp at h
    · rintro ⟨a, b, r, hs, ha, hb⟩
      have hda : s.data.dropWhile Char.isDigit = '.' :: (b ++ '.' :: r) := by
        rw [hs, dropWhile_append_of_all a _ ha, List.dropWhile_cons, hdot]
        simp
      have hdb : (b ++ '.' :: r).dropWhile Char.isDigit = '.' :: r := by
        rw [dropWhile_append_of_all b _ hb, List.dropWhile_cons, hdot]
        simp
      unfold parse_short_version shortVersionMatch
      rw [hda]
      simp only [List.head?_cons, List.tail_cons, hdb]
      simp
  · rintro a b c r hs ha hb hc hr
    have hta : s.data.takeWhile Char.isDigit = a := by
      rw [hs, takeWhile_append_of_all a _ ha, List.takeWhile_cons, hdot]
      simp
    have hda : s.data.dropWhile Char.isDigit = '.' :: (b ++ '.' :: (c ++ r)) := by
      rw [hs, dropWhile_append_of_all a _ ha, List.dropWhile_cons, hdot]
      simp
    have htb : (b ++ '.' :: (c ++ r)).takeWhile Char.isDigit = b := by
      rw [takeWhile_append_of_all b _ hb, List.takeWhile_cons, hdot]
      simp
    have hdb : (b ++ '.' :: (c ++ r)).dropWhile Char.isDigit = '.' :: (c ++ r) := by
      rw [dropWhile_append_of_all b _ hb, List.dropWhile_cons, hdot]
      simp
    have htc : (c ++ r).takeWhile Char.isDigit = c := by
      rw [takeWhile_append_of_all c _ hc]
      rcases hr with rfl | ⟨x, xs, rfl, hx⟩
      · simp
      · rw [List.takeWhile_cons, hx]
        simp
    unfold parse_short_version shortVersionMatch
    rw [hda]
    simp only [List.head?_cons, List.tail_cons, hdb, hta, htb, htc]
    simp

/-- Claim C5, counterexample: `".."` does not begin with a numeric
dotted triple (it contains no digit at all), yet `parse_short_version`
succeeds on it and returns `".."` instead of raising, because the
source regex allows every digit run to be empty. -/
theorem parse_short_version_cex :
    parse_short_version ".." = some ".." ∧ "..".data.any Char.isDigit = false := by
  constructor
  · rfl
  · rfl

/-- Claim C4 (amended): on a pairing table in which every line (of the
stripped body split on newlines) contains a `:`, the resolver returns
the trimmed post-colon field of the FIRST line whose trimmed pre-colon
field equals the primary short version, and fails (`none`) exactly
when no line matches.  The original claim — failure exactly when no
line's version field matches — is refuted by
`cargo_date_from_packaging_cex`: a line with no `:` raises
`IndexError` even when a later line matches. -/
theorem cargo_date_from_packaging_spec (revs_body rustc_version : String)
    (h : ∀ l ∈ pySplitChar '\n' (pyStrip revs_body), 2 ≤ (pySplitChar ':' l).length) :
    cargo_date_from_packaging revs_body rustc_version =
      ((pySplitChar '\n' (pyStrip revs_body)).find?
        (fun l => revLineVersion l = rustc_version)).map revLineDate := by
  unfold cargo_date_from_packaging
  generalize hL : pySplitChar '\n' (pyStrip revs_body) = L at h
  clear hL
  induction L with
  | nil => rfl
  | cons l rest ih =>
    have hl := h l (by simp)
    rcases hsp : pySplitChar ':' l with _ | ⟨v0, _ | ⟨v1, vrest⟩⟩ <;> rw [hsp] at hl <;>
      simp at hl
    have hv : revLineVersion l = pyStrip v0 := by
      unfold revLineVersion
      rw [hsp]
      rfl
    have hd : revLineDate l = pyStrip v1 := by
      unfold revLineDate
      rw [hsp]
      rfl
    have hstep : cargo_revs_scan rustc_version (l :: rest) =
        if pyStrip v0 = rustc_version then some (pyStrip v1)
        else cargo_revs_scan rustc_version rest := by
      show (match pySplitChar ':' l with
        | [] => none
        | [_] => none
        | v0 :: v1 :: _ =>
          if pyStrip v0 = rustc_version then some (pyStrip v1)
          else cargo_revs_scan rustc_version rest) = _
      rw [hsp]
    rw [hstep]
    by_cases hm : pyStrip v0 = rustc_version
    · rw [if_pos hm, List.find?_cons_of_pos _ (by rw [hv]; simpa using hm)]
      simp [hd, hm]
    · rw [if_neg hm, List.find?_cons_of_neg _ (by rw [hv]; simpa using hm)]
      exact ih (fun x hx => h x (by simp [hx]))

/-- Claim C4, witness: the spec's own example — table
`"1.2.3 : 2016-01-01"`, short version `"1.2.3"` — resolves to
`"2016-01-01"`. -/
theorem cargo_date_from_packaging_spec_witness :
    cargo_date_from_packaging "1.2.3 : 2016-01-01" "1.2.3" = some "2016-01-01" := by
  have h := cargo_date_from_packaging_spec "1.2.3 : 2016-01-01" "1.2.3" (by decide)
  exact h.trans (by decide)

/-- Claim C4, counterexample: the table
`"junk\n1.2.3 : 2016-01-01"` contains a line whose trimmed version
field equals `"1.2.3"`, yet the resolver fails (`values[1]` raises
`IndexError` on the colon-less line `"junk"` before the matching line
is reached), instead of returning `"2016-01-01"` as the claim
states. -/
theorem cargo_date_from_packaging_cex :
    cargo_date_from_packaging "junk\n1.2.3 : 2016-01-01" "1.2.3" = none ∧
    "1.2.3 : 2016-01-01" ∈ pySplitChar '\n' (pyStrip "junk\n1.2.3 : 2016-01-01") ∧
    revLineVersion "1.2.3 : 2016-01-01" = "1.2.3" ∧
    revLineDate "1.2.3 : 2016-01-01" = "2016-01-01" := by
  refine ⟨rfl, by decide, rfl, rfl⟩

theorem count_pair_map (a b x : String) (l : List String) :
    (l.map (fun t => (a, t))).count (b, x) = if b = a then l.count x else 0 := by
  induction l with
  | nil => simp
  | cons y ys ih =>
    simp only [List.map_cons, List.count_cons, beq_iff_eq, ih, Prod.mk.injEq]
    by_cases hb : b = a
    · subst hb
      by_cases hx : x = y <;> simp [hx]
    · simp only [if_neg hb, Nat.zero_add]
      rw [if_neg (fun hxy => hb hxy.1.symm)]

theorem target_list_nodup : target_list.Nodup := by decide

/-- For every configured host, the source's substring test
`"windows" in host and "gnu" in host` agrees with membership in
`mingw_list`. -/
theorem mingw_flag_agrees :
    ∀ h ∈ host_list, (pyIn "windows" h && pyIn "gnu" h) = decide (h ∈ mingw_list) := by
  decide

/-- Claim C7: for every host, the umbrella (`rust`) record's
required-components list has length 4 (rustc, rust-std, rust-docs,
cargo bound to the host), or length 5 with last entry `rust-mingw` for
the windows+gnu hosts; and its extensions list holds exactly one
`rust-std` entry for every platform of the full target list other than
the host, and exactly one `rust-src` entry bound to `"*"`. -/
theorem rust_umbrella_components_extensions (host t : String) (hh : host ∈ host_list) :
    (host ∈ mingw_list →
      (rust_required_components host).length = 5 ∧
      (rust_required_components host).getLast? = some ("rust-mingw", host)) ∧
    (host ∉ mingw_list → (rust_required_components host).length = 4) ∧
    (t ∈ target_list → t ≠ host → (rust_extensions host).count ("rust-std", t) = 1) ∧
    ((t ∉ target_list ∨ t = host) → (rust_extensions host).count ("rust-std", t) = 0) ∧
    (rust_extensions host).count ("rust-src", "*") = 1 := by
  have hcond := mingw_flag_agrees host hh
  have hcount : ∀ (b : String) (x : String),
      (rust_extensions host).count (b, x) =
        (if b = "rust-std" then ((target_list.filter (fun y => y ≠ host)).count x) else 0) +
          (if (b, x) = ("rust-src", "*") then 1 else 0) := by
    intro b x
    unfold rust_extensions
    rw [List.count_append, count_pair_map, List.count_singleton]
    congr 1
    simp only [beq_iff_eq, Prod.mk.injEq]
    by_cases h1 : b = "rust-src"
    · subst h1
      by_cases h2 : x = "*"
      · subst h2
        simp
      · rw [if_neg (fun hp => h2 hp.2.symm), if_neg (fun hp => h2 hp.2)]
    · rw [if_neg (fun hp => h1 hp.1.symm), if_neg (fun hp => h1 hp.1)]
  refine ⟨fun hm => ?_, fun hm => ?_, fun ht hne => ?_, fun hor => ?_, ?_⟩
  · rw [decide_eq_true hm] at hcond
    unfold rust_required_components
    rw [hcond]
    constructor
    · rfl
    · simp
  · rw [decide_eq_false hm] at hcond
    unfold rust_required_components
    rw [hcond]
    rfl
  · rw [hcount, if_pos rfl,
      if_neg (fun hp => by injection hp with hp1 _; exact absurd hp1 (by decide))]
    have hc : (target_list.filter (fun y => y ≠ host)).count t = 1 := by
      rw [List.count_filter (by simpa using hne)]
      exact List.count_eq_one_of_mem target_list_nodup ht
    rw [hc]
  · rw [hcount, if_pos rfl,
      if_neg (fun hp => by injection hp with hp1 _; exact absurd hp1 (by decide))]
    have hc : (target_list.filter (fun y => y ≠ host)).count t = 0 := by
      rcases hor with hnt | rfl
      · exact List.count_eq_zero_of_not_mem (fun hmem => hnt (List.mem_of_mem_filter hmem))
      · exact List.count_eq_zero_of_not_mem (fun hmem => by
          have hf := List.of_mem_filter hmem
          simp at hf)
    rw [hc]
  · rw [hcount, if_neg (by decide), if_pos rfl]

/-- Claim C7, witness: the windows+gnu host `x86_64-pc-windows-gnu`
gets five required components ending in the mingw bundle, and its
extensions carry exactly one `rust-std` entry for the non-host target
`i686-apple-darwin` and exactly one wildcard `rust-src` entry. -/
theorem rust_umbrella_components_extensions_witness :
    (rust_required_components "x86_64-pc-windows-gnu").length = 5 ∧
    (rust_required_components "x86_64-pc-windows-gnu").getLast? =
      some ("rust-mingw", "x86_64-pc-windows-gnu") ∧
    (rust_extensions "x86_64-pc-windows-gnu").count ("rust-std", "i686-apple-darwin") = 1 ∧
    (rust_extensions "x86_64-pc-windows-gnu").count ("rust-src", "*") = 1 := by
  have h := rust_umbrella_components_extensions "x86_64-pc-windows-gnu" "i686-apple-darwin"
    (by decide)
  exact ⟨(h.1 (by decide)).1, (h.1 (by decide)).2, h.2.2.1 (by decide) (by decide), h.2.2.2.2⟩

/-- A concrete environment for witnesses: no network, one local file
whose hash is `"HH"`. -/
def envLocal : Env :=
  { head := fun _ => none, fetch := fun _ => none,
    read_local := fun _ => some [], sha256hex := fun _ => "HH" }

/-- Claim C8: the umbrella package's availability is resolved from the
local disk, not remotely: with the filename
`rust-<version-or-channel>-<host>.tar.gz` (version segment = channel
name unless the channel is `"stable"`, then the resolved short
version), a missing local file yields an unavailable record with empty
url and hash (and the run continues — the builder is total), while a
present file yields the public URL built from the public address, the
build date, and that filename, and the hex digest of the local file's
bytes as the hash. -/
theorem rust_package_local_resolution (env : Env)
    (channel today public_addy rust_package_dir short host fn : String)
    (hfn : fn = "rust-" ++ (if channel = "stable" then short else channel) ++ "-" ++ host ++
      ".tar.gz") :
    (env.read_local (rust_package_dir ++ "/" ++ fn) = none →
      rust_target_pkg env channel today public_addy rust_package_dir short host =
        { available := false, url := "", hash := "",
          components := rust_required_components host,
          extensions := rust_extensions host }) ∧
    (∀ buf, env.read_local (rust_package_dir ++ "/" ++ fn) = some buf →
      rust_target_pkg env channel today public_addy rust_package_dir short host =
        { available := true, url := public_addy ++ "/dist/" ++ today ++ "/" ++ fn,
          hash := env.sha256hex buf,
          components := rust_required_components host,
          extensions := rust_extensions host }) := by
  subst hfn
  constructor
  · intro hnone
    simp only [rust_target_pkg, url_and_hash_of_rust_package]
    rw [hnone]
  · intro buf hsome
    simp only [rust_target_pkg, url_and_hash_of_rust_package]
    rw [hsome]

/-- Claim C8, witness: a stable-channel run with the local archive
present records the public URL under the short-version filename and
the local file's digest. -/
theorem rust_package_local_resolution_witness :
    rust_target_pkg envLocal "stable" "2016-05-01" "PUB" "DIR" "1.9.0" "HOST" =
      { available := true, url := "PUB/dist/2016-05-01/rust-1.9.0-HOST.tar.gz",
        hash := "HH", components := rust_required_components "HOST",
        extensions := rust_extensions "HOST" } := by
  have h := rust_package_local_resolution envLocal "stable" "2016-05-01" "PUB" "DIR"
    "1.9.0" "HOST" _ rfl
  exact (h.2 [] rfl).trans (by decide)

theorem pyReplaceFuel_ne_nil (old new : List Char) (hnew : new ≠ []) :
    ∀ (fuel : Nat) (l : List Char), l ≠ [] → pyReplaceFuel old new fuel l ≠ [] := by
  intro fuel
  induction fuel with
  | zero =>
    intro l hl
    cases l with
    | nil => exact absurd rfl hl
    | cons c rest => simp [pyReplaceFuel]
  | succ n ih =>
    intro l hl
    cases l with
    | nil => exact absurd rfl hl
    | cons c rest =>
      by_cases hp : old.isPrefixOf (c :: rest)
      · simp [pyReplaceFuel, hp, hnew]
      · simp [pyReplaceFuel, hp]

theorem pyReplace_ne_empty (s old new : String) (hs : s.data ≠ []) (hnew : new.data ≠ []) :
    (pyReplace s old new).data ≠ [] := by
  unfold pyReplace
  by_cases ho : old.data.isEmpty
  · rw [if_pos ho]
    cases hsd : s.data with
    | nil => exact absurd hsd hs
    | cons c rest => simp [pyInterleave]
  · rw [if_neg ho]
    exact pyReplaceFuel_ne_nil _ _ hnew _ _ hs

theorem append_tar_gz_ne_nil (a : String) : (a ++ ".tar.gz").data ≠ [] := by
  intro h
  rw [String.data_append] at h
  rcases List.append_eq_nil.mp h with ⟨-, h2⟩
  exact absurd h2 (by decide)

theorem live_candidate_urls_ne_nil (channel s3_addy name dist_dir date version target : String) :
    (live_candidate_urls channel s3_addy name dist_dir date version target).1.data ≠ [] ∧
    (live_candidate_urls channel s3_addy name dist_dir date version target).2.data ≠ [] := by
  unfold live_candidate_urls
  by_cases h : name = "rust-src" <;> simp only [h, if_true, if_false, reduceIte] <;>
    exact ⟨append_tar_gz_ne_nil _, append_tar_gz_ne_nil _⟩

theorem live_package_url_some_shape (env : Env)
    (channel s3_addy name dist_dir date version target url : String)
    (h : live_package_url env channel s3_addy name dist_dir date version target = some url) :
    url = (live_candidate_urls channel s3_addy name dist_dir date version target).1 ∨
    url = (live_candidate_urls channel s3_addy name dist_dir date version target).2 := by
  unfold live_package_url at h
  by_cases h1 : headOk env (live_candidate_urls channel s3_addy name dist_dir date version target).1 <;>
    by_cases h2 : headOk env (live_candidate_urls channel s3_addy name dist_dir date version target).2 <;>
    simp [h1, h2] at h <;> simp [h]

theorem hash_from_s3_some (env : Env) (url h : String)
    (hh : hash_from_s3_installer env url = some h) :
    ∃ body, env.fetch (url ++ ".sha256") = some (200, body) ∧
      h = (⟨body.data.take 64⟩ : String) := by
  unfold hash_from_s3_installer at hh
  cases hf : env.fetch (url ++ ".sha256") with
  | none => rw [hf] at hh; exact absurd hh (by simp)
  | some p =>
    obtain ⟨code, body⟩ := p
    rw [hf] at hh
    by_cases hc : code = 200
    · subst hc
      simp at hh
      exact ⟨body, rfl, hh.symm⟩
    · simp [hc] at hh

/-- The shape of every record the per-target loop produces: either the
unavailable record, or an available record whose url is the located
URL rewritten to the public address and whose hash came from the
`.sha256` side-file. -/
theorem build_target_defs_shape (env : Env)
    (channel s3_addy public_addy name dist_dir archive_date short_version : String) :
    ∀ (targets : List String) (tl : List (String × TargetRecord)),
      build_target_defs env channel s3_addy public_addy name dist_dir archive_date
        short_version targets = some tl →
      ∀ tgt rec, (tgt, rec) ∈ tl →
        rec = unavailableRecord ∨
        ∃ url hsh,
          live_package_url env channel s3_addy name dist_dir archive_date short_version tgt =
            some url ∧
          hash_from_s3_installer env url = some hsh ∧
          rec = { available := true, url := pyReplace url s3_addy public_addy, hash := hsh } := by
  intro targets
  induction targets with
  | nil =>
    intro tl htl tgt rec hmem
    simp [build_target_defs] at htl
    subst htl
    simp at hmem
  | cons t ts ih =>
    intro tl htl tgt rec hmem
    rcases hl : live_package_url env channel s3_addy name dist_dir archive_date short_version t
      with _ | url
    · simp only [build_target_defs, hl] at htl
      obtain ⟨tl', htl', rfl⟩ := Option.map_eq_some'.mp htl
      rcases List.mem_cons.mp hmem with heq | hmem'
      · left
        exact (Prod.ext_iff.mp heq).2
      · exact ih tl' htl' tgt rec hmem'
    · cases hh : hash_from_s3_installer env url with
      | none =>
        simp only [build_target_defs, hl, hh] at htl
        exact absurd htl (by simp)
      | some hsh =>
        simp only [build_target_defs, hl, hh] at htl
        obtain ⟨tl', htl', rfl⟩ := Option.map_eq_some'.mp htl
        rcases List.mem_cons.mp hmem with heq | hmem'
        · obtain ⟨h1, h2⟩ := Prod.ext_iff.mp heq
          right
          subst h1
          exact ⟨url, hsh, hl, hh, h2⟩
        · exact ih tl' htl' tgt rec hmem'

theorem string_ne_empty_of_data_ne_nil {s : String} (h : s.data ≠ []) : s ≠ "" :=
  fun he => h (congrArg String.data he)

/-- Claim C1 (amended): in every package definition the builder
returns, `available = false` holds iff both `url` and `hash` are the
empty string (given a non-empty public address); and `available = true`
implies the hash is the first 64 characters of the fetched `.sha256`
side-file body, hence of length at most 64 — the builder performs NO
validation that those characters are 64 hex digits.  The original
claim's `len(hash) == 64` / `^[0-9a-f]{64}$` guarantee is refuted by
`target_record_hash_unvalidated_cex`. -/
theorem target_record_availability_invariant (env : Env)
    (channel s3_addy public_addy name dist_dir archive_date version short_version : String)
    (targets : List String) (pkg : Package)
    (hpub : public_addy ≠ "")
    (hb : build_package_def_from_archive env channel s3_addy public_addy name dist_dir
      archive_date version short_version targets = some pkg) :
    ∀ tgt rec, (tgt, rec) ∈ pkg.targets →
      ((rec.available = false) ↔ (rec.url = "" ∧ rec.hash = "")) ∧
      (rec.available = true →
        rec.url ≠ "" ∧ ∃ url body, env.fetch (url ++ ".sha256") = some (200, body) ∧
          rec.hash = (⟨body.data.take 64⟩ : String) ∧ rec.hash.length ≤ 64) := by
  intro tgt rec hmem
  have hpd : public_addy.data ≠ [] := by
    intro h
    exact hpub (String.ext h)
  unfold build_package_def_from_archive at hb
  obtain ⟨tl, htl, rfl⟩ := Option.map_eq_some'.mp hb
  rcases build_target_defs_shape env channel s3_addy public_addy name dist_dir archive_date
      short_version targets tl htl tgt rec hmem with hrec | ⟨url, hsh, hlive, hhash, hrec⟩
  · subst hrec
    constructor
    · simp [unavailableRecord]
    · intro hav
      simp [unavailableRecord] at hav
  · subst hrec
    have hurl : pyReplace url s3_addy public_addy ≠ "" := by
      apply string_ne_empty_of_data_ne_nil
      apply pyReplace_ne_empty _ _ _ _ hpd
      rcases live_package_url_some_shape env channel s3_addy name dist_dir archive_date
          short_version tgt url hlive with rfl | rfl
      · exact (live_candidate_urls_ne_nil channel s3_addy name dist_dir archive_date
          short_version tgt).1
      · exact (live_candidate_urls_ne_nil channel s3_addy name dist_dir archive_date
          short_version tgt).2
    obtain ⟨body, hfetch, hbody⟩ := hash_from_s3_some env url hsh hhash
    refine ⟨⟨fun hav => by simp at hav, fun hp => absurd hp.1 hurl⟩,
      fun _ => ⟨hurl, url, body, hfetch, hbody, ?_⟩⟩
    subst hbody
    show (body.data.take 64).length ≤ 64
    rw [List.length_take]
    omega

/-- The environment for the C1 witness: every HEAD probe answers 200
and the `.sha256` side-file body is a full 64-character hex digest. -/
def envHashOk : Env :=
  { head := fun _ => some 200,
    fetch := fun _ =>
      some (200, "0123456789abcdef0123456789abcdef0123456789abcdef0123456789abcdef"),
    read_local := fun _ => none, sha256hex := fun _ => "" }

/-- The record the C1 witness run produces for its single target. -/
def recHashOk : TargetRecord :=
  { available := true, url := "PUB/dist/D/rustc-1.0.0-T.tar.gz",
    hash := "0123456789abcdef0123456789abcdef0123456789abcdef0123456789abcdef" }

/-- Claim C1, witness: a concrete run in which the single target is
available, with hash the 64 side-file characters. -/
theorem target_record_availability_invariant_witness :
    ((recHashOk.available = false) ↔ (recHashOk.url = "" ∧ recHashOk.hash = "")) ∧
    (recHashOk.available = true →
      recHashOk.url ≠ "" ∧ ∃ url body, envHashOk.fetch (url ++ ".sha256") = some (200, body) ∧
        recHashOk.hash = (⟨body.data.take 64⟩ : String) ∧ recHashOk.hash.length ≤ 64) :=
  target_record_availability_invariant envHashOk "nightly" "S3" "PUB" "rustc" "dist"
    "D" "1.0.0" "1.0.0" ["T"] { version := "1.0.0", targets := [("T", recHashOk)] }
    (by decide) (by decide) "T" recHashOk (by decide)

/-- The environment for the C1 counterexample: the `.sha256` side-file
body is the two-character non-hex string `"zz"`. -/
def envHashBad : Env :=
  { head := fun _ => some 200, fetch := fun _ => some (200, "zz"),
    read_local := fun _ => none, sha256hex := fun _ => "" }

/-- Claim C1, counterexample: when the fetched side-file body is
`"zz"`, the builder records an available target whose hash is `"zz"` —
available with a hash of length 2, not 64, and not matching
`^[0-9a-f]{64}$`; the builder never validates the side-file's
content. -/
theorem target_record_hash_unvalidated_cex :
    build_package_def_from_archive envHashBad "nightly" "S3" "PUB" "rustc" "dist" "D"
      "1.0.0" "1.0.0" ["T"] =
      some { version := "1.0.0",
             targets := [("T", { available := true,
                                 url := "PUB/dist/D/rustc-1.0.0-T.tar.gz",
                                 hash := "zz" })] } ∧
    ("zz" : String).length ≠ 64 := by
  constructor
  · decide
  · decide

/-- Claim C6: (i) a target whose locator probe finds nothing is
recorded as the unavailable record and the builder carries on with the
remaining targets — when every located URL's side-file fetch succeeds
the whole loop returns records for ALL supplied targets in order;
(ii) if for some target the locator returns a URL whose `.sha256`
side-file fetch fails or is non-200, the whole builder returns `none`
(the raise aborts the run). -/
theorem builder_not_found_soft_hash_failure_fatal (env : Env)
    (channel s3_addy public_addy name dist_dir archive_date version short_version : String)
    (targets : List String) :
    (∀ tgt ∈ targets, ∀ url,
      live_package_url env channel s3_addy name dist_dir archive_date short_version tgt =
        some url →
      hash_from_s3_installer env url = none →
      build_package_def_from_archive env channel s3_addy public_addy name dist_dir
        archive_date version short_version targets = none) ∧
    ((∀ tgt ∈ targets, ∀ url,
        live_package_url env channel s3_addy name dist_dir archive_date short_version tgt =
          some url →
        (hash_from_s3_installer env url).isSome = true) →
      ∃ tl, build_target_defs env channel s3_addy public_addy name dist_dir archive_date
          short_version targets = some tl ∧
        tl.map Prod.fst = targets ∧
        ∀ tgt ∈ targets,
          live_package_url env channel s3_addy name dist_dir archive_date short_version tgt =
            none →
          (tgt, unavailableRecord) ∈ tl) := by
  induction targets with
  | nil =>
    exact ⟨fun tgt h => absurd h (List.not_mem_nil tgt), fun _ => ⟨[], rfl, rfl, by simp⟩⟩
  | cons t ts ih =>
    constructor
    · intro tgt hmem url hlive hhash
      unfold build_package_def_from_archive
      rcases List.mem_cons.mp hmem with rfl | hmem'
      · simp only [build_target_defs, hlive, hhash]
        rfl
      · rcases hl : live_package_url env channel s3_addy name dist_dir archive_date
            short_version t with _ | url'
        · have hrec := ih.1 tgt hmem' url hlive hhash
          unfold build_package_def_from_archive at hrec
          rcases hts : build_target_defs env channel s3_addy public_addy name dist_dir
              archive_date short_version ts with _ | tl
          · simp only [build_target_defs, hl, hts]
            rfl
          · rw [hts] at hrec
            simp at hrec
        · cases hh : hash_from_s3_installer env url' with
          | none =>
            simp only [build_target_defs, hl, hh]
            rfl
          | some hsh =>
            have hrec := ih.1 tgt hmem' url hlive hhash
            unfold build_package_def_from_archive at hrec
            rcases hts : build_target_defs env channel s3_addy public_addy name dist_dir
                archive_date short_version ts with _ | tl
            · simp only [build_target_defs, hl, hh, hts]
              rfl
            · rw [hts] at hrec
              simp at hrec
    · intro hok
      obtain ⟨tl, htl, hfst, hunav⟩ := ih.2 (fun tgt h url hl => hok tgt (by simp [h]) url hl)
      rcases hl : live_package_url env channel s3_addy name dist_dir archive_date
          short_version t with _ | url
      · refine ⟨(t, unavailableRecord) :: tl, ?_, by simp [hfst], ?_⟩
        · simp only [build_target_defs, hl, htl]
          rfl
        · intro tgt hmem hnone
          rcases List.mem_cons.mp hmem with rfl | hmem'
          · exact List.mem_cons_self _ _
          · exact List.mem_cons_of_mem _ (hunav tgt hmem' hnone)
      · obtain ⟨hsh, hh⟩ := Option.isSome_iff_exists.mp (hok t (by simp) url hl)
        refine ⟨(t, { available := true,
                      url := pyReplace url s3_addy public_addy,
                      hash := hsh }) :: tl, ?_, by simp [hfst], ?_⟩
        · simp only [build_target_defs, hl, hh, htl]
          rfl
        · intro tgt hmem hnone
          rcases List.mem_cons.mp hmem with rfl | hmem'
          · rw [hl] at hnone
            exact absurd hnone (by simp)
          · exact List.mem_cons_of_mem _ (hunav tgt hmem' hnone)

/-! ## Round-trip of the serializer (claim C9) -/

/-- A key written bare by `bare_key`: non-empty, all characters in
`[a-zA-Z0-9_-]`.  All package names of `build_manifest` are such. -/
def isBare (s : String) : Prop :=
  s.data ≠ [] ∧ s.data.all isBareChar = true

instance (s : String) : Decidable (isBare s) := by
  unfold isBare
  infer_instance

/-- A target key of an assembled manifest: a bare identifier or the
wildcard `"*"`. -/
def goodTgt (s : String) : Prop :=
  isBare s ∨ s = "*"

instance (s : String) : Decidable (goodTgt s) := by
  unfold goodTgt
  infer_instance

/-- A string without a newline character (values of an assembled
manifest that round-trip through the line-oriented format). -/
def noNL (s : String) : Prop :=
  '\n' ∉ s.data

instance (s : String) : Decidable (noNL s) := by
  unfold noNL
  infer_instance

theorem escQ_head_ne_quote (r : List Char) (d : Char) (t : List Char)
    (h : escQ r = d :: t) : d ≠ '"' := by
  cases r with
  | nil => exact absurd h (by simp [escQ])
  | cons x xs =>
    by_cases hx : x = '"'
    · rw [show escQ (x :: xs) = '\\' :: '"' :: escQ xs by simp [escQ, hx]] at h
      intro hd
      injection h with h1 _
      rw [← h1] at hd
      exact absurd hd (by decide)
    · rw [show escQ (x :: xs) = x :: escQ xs by simp [escQ, hx]] at h
      intro hd
      injection h with h1 _
      exact hx (h1.trans hd)

theorem unescQ_escQ (l : List Char) : unescQ (escQ l) = l := by
  induction l with
  | nil => rfl
  | cons c r ih =>
    by_cases hc : c = '"'
    · subst hc
      rw [show escQ ('"' :: r) = '\\' :: '"' :: escQ r by simp [escQ]]
      rw [show unescQ ('\\' :: '"' :: escQ r) = '"' :: unescQ (escQ r) by simp [unescQ]]
      rw [ih]
    · rw [show escQ (c :: r) = c :: escQ r by simp [escQ, hc]]
      cases he : escQ r with
      | nil =>
        have hr : r = [] := by
          have := ih
          rw [he] at this
          exact this.symm ▸ rfl
        subst hr
        simp [unescQ]
      | cons d t =>
        have hd : d ≠ '"' := escQ_head_ne_quote r d t he
        rw [show unescQ (c :: d :: t) = c :: unescQ (d :: t) by
          simp [unescQ]
          intro h1 h2
          exact absurd h2 hd]
        rw [← he, ih]

theorem unquote_quote (v : String) : unquote (quote v) = some v := by
  unfold unquote quote
  rw [String.data_append, String.data_append]
  rw [show ("\"" : String).data = ['"'] from rfl]
  show (match '"' :: (escQ v.data ++ ['"']) with
    | '"' :: rest => if rest.getLast? = some '"' then some (⟨unescQ rest.dropLast⟩ : String)
                     else none
    | _ => none) = some v
  simp only [List.getLast?_concat, List.dropLast_concat, if_pos rfl]
  rw [unescQ_escQ]
  simp

theorem parseValueLine_quote (label v : String) :
    parseValueLine label ((label ++ " = ") ++ quote v) = some v := by
  unfold parseValueLine
  rw [if_pos (List.isPrefixOf_iff_prefix.mpr (by
    rw [String.data_append]
    exact List.prefix_append _ _))]
  simp only [String.data_append]
  rw [List.drop_left]
  exact unquote_quote v

theorem parseAvailableLine_bool (av : Bool) :
    parseAvailableLine ("available = " ++ (if av then "true" else "false")) = some av := by
  cases av
  · rfl
  · rfl

theorem splitOnChar_ne_nil (c : Char) (l : List Char) : splitOnChar c l ≠ [] := by
  cases l with
  | nil => simp [splitOnChar]
  | cons x xs =>
    unfold splitOnChar
    cases splitOnChar c xs with
    | nil => by_cases hx : x = c <;> simp [hx]
    | cons h t => by_cases hx : x = c <;> simp [hx]

theorem splitOnChar_append_cons (a rest : List Char) (ha : '\n' ∉ a) :
    splitOnChar '\n' (a ++ '\n' :: rest) = a :: splitOnChar '\n' rest := by
  induction a with
  | nil =>
    show splitOnChar '\n' ('\n' :: rest) = [] :: splitOnChar '\n' rest
    simp only [splitOnChar]
    cases hs : splitOnChar '\n' rest with
    | nil => exact absurd hs (splitOnChar_ne_nil _ _)
    | cons h t => simp
  | cons x a' ih =>
    have hx : x ≠ '\n' := fun he => ha (he ▸ List.mem_cons_self x a')
    have ha' : '\n' ∉ a' := fun hm => ha (List.mem_cons_of_mem x hm)
    show splitOnChar '\n' (x :: (a' ++ '\n' :: rest)) = (x :: a') :: splitOnChar '\n' rest
    simp only [splitOnChar]
    rw [ih ha']
    simp [hx]

theorem docLines_joinLines (L : List String) (h : ∀ l ∈ L, '\n' ∉ l.data) :
    docLines (joinLines L) = L ++ [""] := by
  induction L with
  | nil => rfl
  | cons l r ih =>
    show docLines (l ++ "\n" ++ joinLines r) = l :: (r ++ [""])
    unfold docLines
    rw [String.data_append, String.data_append,
      show ("\n" : String).data = ['\n'] from rfl, List.append_assoc, List.cons_append,
      List.nil_append, splitOnChar_append_cons _ _ (h l (by simp))]
    rw [List.map_cons]
    have := ih (fun x hx => h x (by simp [hx]))
    unfold docLines at this
    rw [this]

theorem bare_key_of_isBare {k : String} (h : isBare k) : bare_key k = k := by
  unfold bare_key
  rw [if_pos]
  unfold bareKeyMatch
  rw [Bool.or_eq_true, Bool.and_eq_true]
  left
  refine ⟨?_, h.2⟩
  cases hd : k.data with
  | nil => exact absurd hd h.1
  | cons c cs => rfl

theorem bare_key_star : bare_key "*" = "\"*\"" := by decide

theorem bare_key_goodTgt_inj {t t' : String} (h : goodTgt t) (h' : goodTgt t')
    (he : bare_key t = bare_key t') : t = t' := by
  rcases h with hb | rfl <;> rcases h' with hb' | rfl
  · rw [bare_key_of_isBare hb, bare_key_of_isBare hb'] at he
    exact he
  · rw [bare_key_of_isBare hb, bare_key_star] at he
    have := hb.2
    rw [he] at this
    exact absurd this (by decide)
  · rw [bare_key_of_isBare hb', bare_key_star] at he
    have := hb'.2
    rw [← he] at this
    exact absurd this (by decide)
  · rfl

theorem bare_split : ∀ (a b : List Char) (x y : Char) (xs ys : List Char),
    a.all isBareChar = true → b.all isBareChar = true →
    isBareChar x = false → isBareChar y = false →
    a ++ x :: xs = b ++ y :: ys → a = b ∧ x = y ∧ xs = ys := by
  intro a
  induction a with
  | nil =>
    intro b x y xs ys _ hb hx hy h
    cases b with
    | nil =>
      simp at h
      exact ⟨rfl, h.1, h.2⟩
    | cons d b' =>
      simp at h
      rw [List.all_cons, Bool.and_eq_true] at hb
      rw [h.1] at hx
      exact absurd hb.1 (by simp [hx])
  | cons c a' ih =>
    intro b x y xs ys ha hb hx hy h
    rw [List.all_cons, Bool.and_eq_true] at ha
    cases b with
    | nil =>
      simp at h
      rw [← h.1] at hy
      exact absurd ha.1 (by simp [hy])
    | cons d b' =>
      rw [List.all_cons, Bool.and_eq_true] at hb
      simp at h
      obtain ⟨h1, h2⟩ := h
      obtain ⟨e1, e2, e3⟩ := ih b' x y xs ys ha.2 hb.2 hx hy h2
      exact ⟨by rw [h1, e1], e2, e3⟩

theorem pkgHeader_data (n : String) :
    (pkgHeader n).data = '[' :: 'p' :: 'k' :: 'g' :: '.' :: ((bare_key n).data ++ [']']) := by
  unfold pkgHeader
  simp only [String.data_append]
  simp [List.append_assoc]

theorem targetHeader_data (n t : String) :
    (targetHeader n t).data =
      '[' :: 'p' :: 'k' :: 'g' :: '.' :: ((bare_key n).data ++
        ('.' :: 't' :: 'a' :: 'r' :: 'g' :: 'e' :: 't' :: '.' ::
          ((bare_key t).data ++ [']']))) := by
  unfold targetHeader
  simp only [String.data_append]
  simp [List.append_assoc]

theorem listHeader_data (n t sec : String) :
    (listHeader n t sec).data =
      '[' :: '[' :: ('p' :: 'k' :: 'g' :: '.' :: ((bare_key n).data ++
        ('.' :: 't' :: 'a' :: 'r' :: 'g' :: 'e' :: 't' :: '.' ::
          ((bare_key t).data ++ ('.' :: (sec.data ++ [']', ']'])))))) := by
  unfold listHeader
  simp only [String.data_append]
  simp [List.append_assoc]

theorem targetHeader_ne_of_head (n t l : String) (c : Char)
    (hl : l.data.head? = some c) (hc : c ≠ '[') : targetHeader n t ≠ l := by
  intro he
  rw [← he, targetHeader_data] at hl
  exact hc (Option.some.inj hl).symm

theorem pkgHeader_ne_of_head (n l : String) (c : Char)
    (hl : l.data.head? = some c) (hc : c ≠ '[') : pkgHeader n ≠ l := by
  intro he
  rw [← he, pkgHeader_data] at hl
  exact hc (Option.some.inj hl).symm

theorem head_data_append (p : String) (c : Char) (cs : List Char) (hp : p.data = c :: cs)
    (s : String) : (p ++ s).data.head? = some c := by
  rw [String.data_append, hp]
  rfl

theorem targetHeader_ne_empty (n t : String) : targetHeader n t ≠ "" := by
  intro he
  have h := targetHeader_data n t
  rw [he] at h
  exact absurd h (by simp)

theorem pkgHeader_ne_empty (n : String) : pkgHeader n ≠ "" := by
  intro he
  have h := pkgHeader_data n
  rw [he] at h
  exact absurd h (by simp)

theorem targetHeader_ne_listHeader (n t n' t' sec : String) :
    targetHeader n t ≠ listHeader n' t' sec := by
  intro he
  have h := targetHeader_data n t
  rw [he, listHeader_data] at h
  injection h with _ h
  injection h with h _
  exact absurd h (by decide)

theorem pkgHeader_ne_listHeader (n n' t' sec : String) :
    pkgHeader n ≠ listHeader n' t' sec := by
  intro he
  have h := pkgHeader_data n
  rw [he, listHeader_data] at h
  injection h with _ h
  injection h with h _
  exact absurd h (by decide)

theorem pkgHeader_ne_targetHeader (n n' t' : String) (hn : isBare n) (hn' : isBare n') :
    pkgHeader n ≠ targetHeader n' t' := by
  intro he
  have h := congrArg String.data he
  rw [pkgHeader_data, targetHeader_data, bare_key_of_isBare hn, bare_key_of_isBare hn'] at h
  injection h with _ h
  injection h with _ h
  injection h with _ h
  injection h with _ h
  injection h with _ h
  obtain ⟨-, h2, -⟩ := bare_split n.data n'.data ']' '.' _ _ hn.2 hn'.2
    (by decide) (by decide) h
  exact absurd h2 (by decide)

theorem targetHeader_inj {n n' t t' : String} (hn : isBare n) (hn' : isBare n')
    (ht : goodTgt t) (ht' : goodTgt t')
    (he : targetHeader n t = targetHeader n' t') : n = n' ∧ t = t' := by
  have h := congrArg String.data he
  rw [targetHeader_data, targetHeader_data, bare_key_of_isBare hn, bare_key_of_isBare hn'] at h
  injection h with _ h
  injection h with _ h
  injection h with _ h
  injection h with _ h
  injection h with _ h
  obtain ⟨h1, -, h3⟩ := bare_split n.data n'.data '.' '.' _ _ hn.2 hn'.2
    (by decide) (by decide) h
  injection h3 with _ h3
  injection h3 with _ h3
  injection h3 with _ h3
  injection h3 with _ h3
  injection h3 with _ h3
  injection h3 with _ h3
  injection h3 with _ h3
  have h4 : bare_key t = bare_key t' := String.ext (List.append_cancel_right h3)
  exact ⟨String.ext h1, bare_key_goodTgt_inj ht ht' h4⟩

theorem pkgHeader_inj {n n' : String} (hn : isBare n) (hn' : isBare n')
    (he : pkgHeader n = pkgHeader n') : n = n' := by
  have h := congrArg String.data he
  rw [pkgHeader_data, pkgHeader_data, bare_key_of_isBare hn, bare_key_of_isBare hn'] at h
  injection h with _ h
  injection h with _ h
  injection h with _ h
  injection h with _ h
  injection h with _ h
  exact String.ext (List.append_cancel_right h)

theorem insertByKey_perm {α : Type} (x : String × α) (l : List (String × α)) :
    List.Perm (insertByKey x l) (x :: l) := by
  induction l with
  | nil => exact List.Perm.refl _
  | cons y ys ih =>
    unfold insertByKey
    by_cases h : pyStrLe x.1 y.1
    · rw [if_pos h]
    · rw [if_neg h]
      exact (List.Perm.cons y ih).trans (List.Perm.swap x y ys)

theorem sortedItems_perm {α : Type} (l : List (String × α)) :
    List.Perm (sortedItems l) l := by
  induction l with
  | nil => exact List.Perm.refl _
  | cons x xs ih =>
    exact (insertByKey_perm x (sortedItems xs)).trans (List.Perm.cons x ih)

theorem noNL_append {a b : String} (ha : '\n' ∉ a.data) (hb : '\n' ∉ b.data) :
    '\n' ∉ (a ++ b).data := by
  rw [String.data_append]
  simp [ha, hb]

theorem mem_escQ {c : Char} {l : List Char} (h : c ∈ escQ l) : c ∈ l ∨ c = '\\' := by
  induction l with
  | nil => exact absurd h (by simp [escQ])
  | cons x xs ih =>
    by_cases hx : x = '"'
    · rw [show escQ (x :: xs) = '\\' :: '"' :: escQ xs by simp [escQ, hx]] at h
      rcases List.mem_cons.mp h with rfl | h
      · exact Or.inr rfl
      · rcases List.mem_cons.mp h with rfl | h
        · exact Or.inl (hx ▸ List.mem_cons_self x xs)
        · rcases ih h with hm | hm
          · exact Or.inl (List.mem_cons_of_mem x hm)
          · exact Or.inr hm
    · rw [show escQ (x :: xs) = x :: escQ xs by simp [escQ, hx]] at h
      rcases List.mem_cons.mp h with rfl | h
      · exact Or.inl (List.mem_cons_self c xs)
      · rcases ih h with hm | hm
        · exact Or.inl (List.mem_cons_of_mem x hm)
        · exact Or.inr hm

theorem noNL_quote {v : String} (h : noNL v) : '\n' ∉ (quote v).data := by
  unfold quote
  intro hm
  rw [String.data_append, String.data_append] at hm
  simp only [List.mem_append] at hm
  rcases hm with (hm | hm) | hm
  · revert hm
    decide
  · rcases mem_escQ hm with hc | hc
    · exact h hc
    · exact absurd hc (by decide)
  · revert hm
    decide

theorem noNL_bare_key {k : String} (h : goodTgt k) : '\n' ∉ (bare_key k).data := by
  rcases h with hb | rfl
  · rw [bare_key_of_isBare hb]
    intro hm
    have := List.all_eq_true.mp hb.2 _ hm
    exact absurd this (by decide)
  · rw [bare_key_star]
    decide

theorem noNL_pkgHeader {n : String} (h : goodTgt n) : '\n' ∉ (pkgHeader n).data := by
  intro hm
  rw [pkgHeader_data] at hm
  simp [noNL_bare_key h] at hm

theorem noNL_targetHeader {n t : String} (hn : goodTgt n) (ht : goodTgt t) :
    '\n' ∉ (targetHeader n t).data := by
  intro hm
  rw [targetHeader_data] at hm
  simp [noNL_bare_key hn, noNL_bare_key ht] at hm

theorem noNL_listHeader {n t : String} (hn : goodTgt n) (ht : goodTgt t) (sec : String)
    (hsec : '\n' ∉ sec.data) : '\n' ∉ (listHeader n t sec).data := by
  intro hm
  rw [listHeader_data] at hm
  simp [noNL_bare_key hn, noNL_bare_key ht, hsec] at hm

/-- Well-formedness of one target entry of an assembled manifest: the
target key is bare or the wildcard, and the value strings carry no
newline. -/
def recordOk (tr : String × TargetRecord) : Prop :=
  goodTgt tr.1 ∧ noNL tr.2.url ∧ noNL tr.2.hash ∧
    (∀ r ∈ tr.2.components, noNL r.1 ∧ noNL r.2) ∧
    (∀ r ∈ tr.2.extensions, noNL r.1 ∧ noNL r.2)

instance (tr : String × TargetRecord) : Decidable (recordOk tr) := by
  unfold recordOk
  infer_instance

/-- Well-formedness of one package entry of an assembled manifest. -/
def packageOk (p : String × Package) : Prop :=
  isBare p.1 ∧ noNL p.2.version ∧ (p.2.targets.map Prod.fst).Nodup ∧
    ∀ tr ∈ p.2.targets, recordOk tr

instance (p : String × Package) : Decidable (packageOk p) := by
  unfold packageOk
  infer_instance

/-- Well-formedness of an assembled manifest: distinct package names,
each entry well-formed.  Every manifest `build_manifest` produces has
this shape (its package names are the seven fixed bare component
names, its targets the configured platform lists plus `"*"`). -/
def manifestOk (m : Manifest) : Prop :=
  (m.pkgs.map Prod.fst).Nodup ∧ ∀ p ∈ m.pkgs, packageOk p

instance (m : Manifest) : Decidable (manifestOk m) := by
  unfold manifestOk
  infer_instance

theorem noNL_refLines {n t : String} (hn : goodTgt n) (ht : goodTgt t) (sec : String)
    (hsec : '\n' ∉ sec.data) (r : String × String) (hr : noNL r.1 ∧ noNL r.2) :
    ∀ l ∈ refLines n t sec r, '\n' ∉ l.data := by
  intro l hl
  rcases (by simpa [refLines] using hl :
      l = listHeader n t sec ∨ l = "pkg = " ++ quote r.1 ∨ l = "target = " ++ quote r.2)
    with rfl | rfl | rfl
  · exact noNL_listHeader hn ht sec hsec
  · exact noNL_append (by decide) (noNL_quote hr.1)
  · exact noNL_append (by decide) (noNL_quote hr.2)

theorem noNL_targetRecordLines {n : String} (hn : goodTgt n) (tr : String × TargetRecord)
    (htr : recordOk tr) : ∀ l ∈ targetRecordLines n tr.1 tr.2, '\n' ∉ l.data := by
  intro l hl
  obtain ⟨ht, hu, hh, hc, he⟩ := htr
  unfold targetRecordLines at hl
  rcases List.mem_append.mp hl with h | h
  · rcases List.mem_append.mp h with h | h
    · rcases List.mem_append.mp h with h | h
      · simp only [List.mem_cons, List.not_mem_nil, or_false] at h
        rcases h with rfl | rfl | rfl | rfl | rfl
        · exact noNL_targetHeader hn ht
        · refine noNL_append (by decide) ?_
          cases tr.2.available <;> decide
        · exact noNL_append (by decide) (noNL_quote hu)
        · exact noNL_append (by decide) (noNL_quote hh)
        · decide
      · obtain ⟨r, hr, h1⟩ := List.mem_flatMap.mp h
        exact noNL_refLines hn ht "components" (by decide) r (hc r hr) l h1
    · obtain ⟨r, hr, h1⟩ := List.mem_flatMap.mp h
      exact noNL_refLines hn ht "extensions" (by decide) r (he r hr) l h1
  · rcases List.mem_singleton.mp h with rfl
    decide

theorem noNL_packageLines (p : String × Package) (hp : packageOk p) :
    ∀ l ∈ packageLines p.1 p.2, '\n' ∉ l.data := by
  intro l hl
  obtain ⟨hb, hv, -, htrs⟩ := hp
  unfold packageLines at hl
  rcases List.mem_append.mp hl with h | h
  · simp only [List.mem_cons, List.not_mem_nil, or_false] at h
    rcases h with rfl | rfl | rfl
    · exact noNL_pkgHeader (Or.inl hb)
    · exact noNL_append (by decide) (noNL_quote hv)
    · decide
  · obtain ⟨tr, htm, h1⟩ := List.mem_flatMap.mp h
    have htm' : tr ∈ p.2.targets := (sortedItems_perm p.2.targets).mem_iff.mp htm
    exact noNL_targetRecordLines (Or.inl hb) tr (htrs tr htm') l h1

theorem noNL_manifestLines (today : String) (m : Manifest) (htoday : noNL today)
    (hm : manifestOk m) : ∀ l ∈ manifestLines today m, '\n' ∉ l.data := by
  intro l hl
  unfold manifestLines at hl
  rcases List.mem_append.mp hl with h | h
  · simp only [List.mem_cons, List.not_mem_nil, or_false] at h
    rcases h with rfl | rfl | rfl
    · decide
    · exact noNL_append (by decide) (noNL_quote htoday)
    · decide
  · obtain ⟨p, hpm, h1⟩ := List.mem_flatMap.mp h
    have hpm' : p ∈ m.pkgs := (sortedItems_perm m.pkgs).mem_iff.mp hpm
    exact noNL_packageLines p (hm.2 p hpm') l h1

theorem readVersionAfter_append (hdr : String) (A rest : List String) (hA : hdr ∉ A) :
    readVersionAfter hdr (A ++ rest) = readVersionAfter hdr rest := by
  induction A with
  | nil => rfl
  | cons l A' ih =>
    have hl : ¬(l = hdr) := fun h => hA (List.mem_cons.mpr (Or.inl h.symm))
    show readVersionAfter hdr (l :: (A' ++ rest)) = _
    simp only [readVersionAfter]
    rw [if_neg hl, ih (fun hm => hA (List.mem_cons_of_mem l hm))]

theorem readTripleAfter_append (hdr : String) (A rest : List String) (hA : hdr ∉ A) :
    readTripleAfter hdr (A ++ rest) = readTripleAfter hdr rest := by
  induction A with
  | nil => rfl
  | cons l A' ih =>
    have hl : ¬(l = hdr) := fun h => hA (List.mem_cons.mpr (Or.inl h.symm))
    show readTripleAfter hdr (l :: (A' ++ rest)) = _
    simp only [readTripleAfter]
    rw [if_neg hl, ih (fun hm => hA (List.mem_cons_of_mem l hm))]

theorem targetHeader_notin_refLines (n t n' t' sec : String) (r : String × String) :
    targetHeader n t ∉ refLines n' t' sec r := by
  intro hm
  rcases (by simpa [refLines] using hm :
      targetHeader n t = listHeader n' t' sec ∨ targetHeader n t = "pkg = " ++ quote r.1 ∨
        targetHeader n t = "target = " ++ quote r.2) with h | h | h
  · exact targetHeader_ne_listHeader n t n' t' sec h
  · exact targetHeader_ne_of_head n t _ 'p' (head_data_append "pkg = " 'p' _ rfl _)
      (by decide) h
  · exact targetHeader_ne_of_head n t _ 't' (head_data_append "target = " 't' _ rfl _)
      (by decide) h

theorem pkgHeader_notin_refLines (n n' t' sec : String) (r : String × String) :
    pkgHeader n ∉ refLines n' t' sec r := by
  intro hm
  rcases (by simpa [refLines] using hm :
      pkgHeader n = listHeader n' t' sec ∨ pkgHeader n = "pkg = " ++ quote r.1 ∨
        pkgHeader n = "target = " ++ quote r.2) with h | h | h
  · exact pkgHeader_ne_listHeader n n' t' sec h
  · exact pkgHeader_ne_of_head n _ 'p' (head_data_append "pkg = " 'p' _ rfl _) (by decide) h
  · exact pkgHeader_ne_of_head n _ 't' (head_data_append "target = " 't' _ rfl _) (by decide) h

theorem targetHeader_notin_targetRecordLines (n t n' t' : String) (tp : TargetRecord)
    (hn : isBare n) (hn' : isBare n') (ht : goodTgt t) (ht' : goodTgt t')
    (hne : ¬(n = n' ∧ t = t')) :
    targetHeader n t ∉ targetRecordLines n' t' tp := by
  intro hm
  unfold targetRecordLines at hm
  rcases List.mem_append.mp hm with h | h
  · rcases List.mem_append.mp h with h | h
    · rcases List.mem_append.mp h with h | h
      · simp only [List.mem_cons, List.not_mem_nil, or_false] at h
        rcases h with h | h | h | h | h
        · exact hne (targetHeader_inj hn hn' ht ht' h)
        · exact targetHeader_ne_of_head n t _ 'a'
            (head_data_append "available = " 'a' _ rfl _) (by decide) h
        · exact targetHeader_ne_of_head n t _ 'u'
            (head_data_append "url = " 'u' _ rfl _) (by decide) h
        · exact targetHeader_ne_of_head n t _ 'h'
            (head_data_append "hash = " 'h' _ rfl _) (by decide) h
        · exact targetHeader_ne_empty n t h
      · obtain ⟨r, hr, h1⟩ := List.mem_flatMap.mp h
        exact targetHeader_notin_refLines n t n' t' "components" r h1
    · obtain ⟨r, hr, h1⟩ := List.mem_flatMap.mp h
      exact targetHeader_notin_refLines n t n' t' "extensions" r h1
  · exact targetHeader_ne_empty n t (List.mem_singleton.mp h)

theorem pkgHeader_notin_targetRecordLines (n n' t' : String) (tp : TargetRecord)
    (hn : isBare n) (hn' : isBare n') :
    pkgHeader n ∉ targetRecordLines n' t' tp := by
  intro hm
  unfold targetRecordLines at hm
  rcases List.mem_append.mp hm with h | h
  · rcases List.mem_append.mp h with h | h
    · rcases List.mem_append.mp h with h | h
      · simp only [List.mem_cons, List.not_mem_nil, or_false] at h
        rcases h with h | h | h | h | h
        · exact pkgHeader_ne_targetHeader n n' t' hn hn' h
        · exact pkgHeader_ne_of_head n _ 'a'
            (head_data_append "available = " 'a' _ rfl _) (by decide) h
        · exact pkgHeader_ne_of_head n _ 'u'
            (head_data_append "url = " 'u' _ rfl _) (by decide) h
        · exact pkgHeader_ne_of_head n _ 'h'
            (head_data_append "hash = " 'h' _ rfl _) (by decide) h
        · exact pkgHeader_ne_empty n h
      · obtain ⟨r, hr, h1⟩ := List.mem_flatMap.mp h
        exact pkgHeader_notin_refLines n n' t' "components" r h1
    · obtain ⟨r, hr, h1⟩ := List.mem_flatMap.mp h
      exact pkgHeader_notin_refLines n n' t' "extensions" r h1
  · exact pkgHeader_ne_empty n (List.mem_singleton.mp h)

theorem targetHeader_notin_packageLines (n t : String) (p : String × Package)
    (hn : isBare n) (ht : goodTgt t) (hp : packageOk p)
    (hne : ∀ tr ∈ p.2.targets, ¬(n = p.1 ∧ t = tr.1)) :
    targetHeader n t ∉ packageLines p.1 p.2 := by
  intro hm
  unfold packageLines at hm
  rcases List.mem_append.mp hm with h | h
  · simp only [List.mem_cons, List.not_mem_nil, or_false] at h
    rcases h with h | h | h
    · exact pkgHeader_ne_targetHeader p.1 n t hp.1 hn h.symm
    · exact targetHeader_ne_of_head n t _ 'v'
        (head_data_append "version = " 'v' _ rfl _) (by decide) h
    · exact targetHeader_ne_empty n t h
  · obtain ⟨tr, htm, h1⟩ := List.mem_flatMap.mp h
    have htm' : tr ∈ p.2.targets := (sortedItems_perm p.2.targets).mem_iff.mp htm
    exact targetHeader_notin_targetRecordLines n t p.1 tr.1 tr.2 hn hp.1 ht
      (hp.2.2.2 tr htm').1 (hne tr htm') h1

theorem pkgHeader_notin_packageLines (n : String) (p : String × Package)
    (hn : isBare n) (hp : packageOk p) (hne : n ≠ p.1) :
    pkgHeader n ∉ packageLines p.1 p.2 := by
  intro hm
  unfold packageLines at hm
  rcases List.mem_append.mp hm with h | h
  · simp only [List.mem_cons, List.not_mem_nil, or_false] at h
    rcases h with h | h | h
    · exact hne (pkgHeader_inj hn hp.1 h)
    · exact pkgHeader_ne_of_head n _ 'v'
        (head_data_append "version = " 'v' _ rfl _) (by decide) h
    · exact pkgHeader_ne_empty n h
  · obtain ⟨tr, htm, h1⟩ := List.mem_flatMap.mp h
    exact pkgHeader_notin_targetRecordLines n p.1 tr.1 tr.2 hn hp.1 h1

theorem targetHeader_notin_preamble (n t today : String) :
    targetHeader n t ∉ ["manifest-version = \"2\"", "date = " ++ quote today, ""] := by
  intro hm
  simp only [List.mem_cons, List.not_mem_nil, or_false] at hm
  rcases hm with h | h | h
  · exact targetHeader_ne_of_head n t "manifest-version = \"2\"" 'm' rfl (by decide) h
  · exact targetHeader_ne_of_head n t _ 'd'
      (head_data_append "date = " 'd' _ rfl _) (by decide) h
  · exact targetHeader_ne_empty n t h

theorem pkgHeader_notin_preamble (n today : String) :
    pkgHeader n ∉ ["manifest-version = \"2\"", "date = " ++ quote today, ""] := by
  intro hm
  simp only [List.mem_cons, List.not_mem_nil, or_false] at hm
  rcases hm with h | h | h
  · exact pkgHeader_ne_of_head n "manifest-version = \"2\"" 'm' rfl (by decide) h
  · exact pkgHeader_ne_of_head n _ 'd' (head_data_append "date = " 'd' _ rfl _) (by decide) h
  · exact pkgHeader_ne_empty n h

theorem key_notin_of_nodup {α : Type} (P1 P2 : List (String × α)) (a : String × α)
    (hn : ((P1 ++ a :: P2).map Prod.fst).Nodup) :
    a.1 ∉ P1.map Prod.fst ∧ a.1 ∉ P2.map Prod.fst := by
  rw [List.map_append, List.map_cons, List.nodup_append] at hn
  obtain ⟨h1, h2, h3⟩ := hn
  exact ⟨fun hm => h3 hm (List.mem_cons_self _ _), (List.nodup_cons.mp h2).1⟩

/-- Claim C9 (amended): for every well-formed assembled manifest —
package names bare identifiers, target keys bare or `"*"`, all keys
distinct, and the date/version/url/hash/reference strings free of
newline characters (every manifest `build_manifest` assembles from
newline-free inputs is of this shape) — serializing with
`write_manifest` and re-parsing the produced document against the
declared format recovers the version string of every package and the
availability flag, URL and hash of every package/target pair.  The
original unconditional claim is refuted by
`write_manifest_roundtrip_newline_cex`: a value containing a newline
breaks the line-oriented document and does not round-trip. -/
theorem write_manifest_roundtrip (today : String) (m : Manifest)
    (htoday : noNL today) (hm : manifestOk m) :
    ∀ name pkg, (name, pkg) ∈ m.pkgs →
      parsePackageVersion (write_manifest today m) name = some pkg.version ∧
      ∀ tgt rec, (tgt, rec) ∈ pkg.targets →
        parseTargetFields (write_manifest today m) name tgt =
          some (rec.available, rec.url, rec.hash) := by
  intro name pkg hmem
  have hpk : packageOk (name, pkg) := hm.2 _ hmem
  have hdoc : docLines (write_manifest today m) = manifestLines today m ++ [""] :=
    docLines_joinLines _ (noNL_manifestLines today m htoday hm)
  have hmemS : (name, pkg) ∈ sortedItems m.pkgs := (sortedItems_perm m.pkgs).mem_iff.mpr hmem
  obtain ⟨P1, P2, hsplit⟩ := List.append_of_mem hmemS
  have hnodupS : ((sortedItems m.pkgs).map Prod.fst).Nodup :=
    ((sortedItems_perm m.pkgs).map Prod.fst).nodup_iff.mpr hm.1
  have hkeys := key_notin_of_nodup P1 P2 (name, pkg) (by rw [← hsplit]; exact hnodupS)
  have hPmem : ∀ q ∈ P1, q ∈ m.pkgs := fun q hq =>
    (sortedItems_perm m.pkgs).mem_iff.mp (by rw [hsplit]; exact List.mem_append.mpr (Or.inl hq))
  have hPne : ∀ q ∈ P1, name ≠ q.1 := by
    intro q hq he
    have hq1 : q.1 ∈ List.map Prod.fst P1 := List.mem_map_of_mem Prod.fst hq
    rw [← he] at hq1
    exact hkeys.1 hq1
  have hlines : docLines (write_manifest today m) =
      ["manifest-version = \"2\"", "date = " ++ quote today, ""] ++
        (P1.flatMap (fun it => packageLines it.1 it.2) ++
          (packageLines name pkg ++
            (P2.flatMap (fun it => packageLines it.1 it.2) ++ [""]))) := by
    rw [hdoc]
    unfold manifestLines
    rw [hsplit, List.flatMap_append, List.flatMap_cons]
    simp [List.append_assoc]
  have hP1v : pkgHeader name ∉ P1.flatMap (fun it => packageLines it.1 it.2) := by
    intro hmm
    obtain ⟨it, hit, h1⟩ := List.mem_flatMap.mp hmm
    exact pkgHeader_notin_packageLines name it hpk.1 (hm.2 it (hPmem it hit)) (hPne it hit) h1
  constructor
  · unfold parsePackageVersion
    rw [hlines, readVersionAfter_append _ _ _ (pkgHeader_notin_preamble name today),
      readVersionAfter_append _ _ _ hP1v]
    show readVersionAfter (pkgHeader name)
      (packageLines name pkg ++
        (P2.flatMap (fun it => packageLines it.1 it.2) ++ [""])) = some pkg.version
    unfold packageLines
    rw [List.append_assoc]
    show readVersionAfter (pkgHeader name)
      (pkgHeader name :: ("version = " ++ quote pkg.version) :: "" :: _) = some pkg.version
    simp only [readVersionAfter, if_pos rfl]
    rw [show ("version = " : String) = "version" ++ " = " from rfl]
    exact parseValueLine_quote "version" pkg.version
  · intro tgt rec htmem
    have hrOk : recordOk (tgt, rec) := hpk.2.2.2 (tgt, rec) htmem
    have hT : goodTgt tgt := hrOk.1
    have hTmemS : (tgt, rec) ∈ sortedItems pkg.targets :=
      (sortedItems_perm pkg.targets).mem_iff.mpr htmem
    obtain ⟨T1, T2, hTsplit⟩ := List.append_of_mem hTmemS
    have hTnodupS : ((sortedItems pkg.targets).map Prod.fst).Nodup :=
      ((sortedItems_perm pkg.targets).map Prod.fst).nodup_iff.mpr hpk.2.2.1
    have hTkeys := key_notin_of_nodup T1 T2 (tgt, rec) (by rw [← hTsplit]; exact hTnodupS)
    have hTmem1 : ∀ tr ∈ T1, tr ∈ pkg.targets := fun tr htr =>
      (sortedItems_perm pkg.targets).mem_iff.mp
        (by rw [hTsplit]; exact List.mem_append.mpr (Or.inl htr))
    have hTne : ∀ tr ∈ T1, tgt ≠ tr.1 := by
      intro tr htr he
      have ht1 : tr.1 ∈ List.map Prod.fst T1 := List.mem_map_of_mem Prod.fst htr
      rw [← he] at ht1
      exact hTkeys.1 ht1
    have hP1t : targetHeader name tgt ∉ P1.flatMap (fun it => packageLines it.1 it.2) := by
      intro hmm
      obtain ⟨it, hit, h1⟩ := List.mem_flatMap.mp hmm
      refine targetHeader_notin_packageLines name tgt it hpk.1 hT (hm.2 it (hPmem it hit))
        (fun tr htr hand => ?_) h1
      exact hPne it hit hand.1
    have hT1t : targetHeader name tgt ∉
        T1.flatMap (fun tr => targetRecordLines name tr.1 tr.2) := by
      intro hmm
      obtain ⟨tr, htr, h1⟩ := List.mem_flatMap.mp hmm
      refine targetHeader_notin_targetRecordLines name tgt name tr.1 tr.2 hpk.1 hpk.1 hT
        ((hpk.2.2.2 tr (hTmem1 tr htr)).1) (fun hand => ?_) h1
      exact hTne tr htr hand.2
    unfold parseTargetFields
    rw [hlines, readTripleAfter_append _ _ _ (targetHeader_notin_preamble name tgt today),
      readTripleAfter_append _ _ _ hP1t]
    show readTripleAfter (targetHeader name tgt)
      (packageLines name pkg ++
        (P2.flatMap (fun it => packageLines it.1 it.2) ++ [""])) = _
    unfold packageLines
    rw [List.append_assoc, hTsplit, List.flatMap_append, List.flatMap_cons, List.append_assoc]
    rw [readTripleAfter_append _ _ _ (by
      intro hmm
      simp only [List.mem_cons, List.not_mem_nil, or_false] at hmm
      rcases hmm with h | h | h
      · exact pkgHeader_ne_targetHeader name name tgt hpk.1 hpk.1 h.symm
      · exact targetHeader_ne_of_head name tgt _ 'v'
          (head_data_append "version = " 'v' _ rfl _) (by decide) h
      · exact targetHeader_ne_empty name tgt h)]
    rw [readTripleAfter_append _ _ _ hT1t, List.append_assoc]
    show readTripleAfter (targetHeader name tgt)
      (targetRecordLines name tgt rec ++ _) = _
    unfold targetRecordLines
    simp only [List.cons_append, List.append_assoc]
    simp only [readTripleAfter, if_pos rfl]
    rw [parseAvailableLine_bool rec.available,
      show ("url = " : String) = "url" ++ " = " from rfl,
      show ("hash = " : String) = "hash" ++ " = " from rfl,
      parseValueLine_quote "url" rec.url, parseValueLine_quote "hash" rec.hash]
    simp

/-- A small concrete assembled-shaped manifest package for the C9
witness: one available target with components/extensions and one
unavailable wildcard target. -/
def pkgW : Package :=
  { version := "1.0.0",
    targets := [("h1", { available := true, url := "u", hash := "ha\"sh",
                         components := [("rustc", "h1")],
                         extensions := [("rust-src", "*")] }),
                ("*", { available := false, url := "", hash := "" })] }

/-- The C9 witness manifest. -/
def mW : Manifest :=
  { date := "2016-01-01", pkgs := [("rust", pkgW)] }

/-- Claim C9, witness: the concrete manifest `mW` round-trips — the
re-parse of its serialization recovers the version, the available
record (with an escaped quote in its hash) and the unavailable
wildcard record. -/
theorem write_manifest_roundtrip_witness :
    parsePackageVersion (write_manifest "2016-01-01" mW) "rust" = some "1.0.0" ∧
    parseTargetFields (write_manifest "2016-01-01" mW) "rust" "h1" =
      some (true, "u", "ha\"sh") ∧
    parseTargetFields (write_manifest "2016-01-01" mW) "rust" "*" =
      some (false, "", "") := by
  have h := write_manifest_roundtrip "2016-01-01" mW (by decide) (by decide) "rust" pkgW
    (by decide)
  exact ⟨h.1,
    h.2 "h1" { available := true, url := "u", hash := "ha\"sh",
               components := [("rustc", "h1")], extensions := [("rust-src", "*")] } (by decide),
    h.2 "*" { available := false, url := "", hash := "" } (by decide)⟩

/-- The C9 counterexample package: its target's URL contains a
newline. -/
def pkgCex : Package :=
  { version := "1", targets := [("t", { available := true, url := "a\nb", hash := "h" })] }

/-- Claim C9, counterexample: with a URL containing a newline, the
serialized document's line structure is broken and re-parsing does NOT
recover the target's fields — the claim fails as stated for this
assembled manifest. -/
theorem write_manifest_roundtrip_newline_cex :
    ("p", pkgCex) ∈ (Manifest.mk "D" [("p", pkgCex)]).pkgs ∧
    ("t", ({ available := true, url := "a\nb", hash := "h" } : TargetRecord)) ∈
      pkgCex.targets ∧
    parseTargetFields (write_manifest "D" (Manifest.mk "D" [("p", pkgCex)])) "p" "t" = none ∧
    parseTargetFields (write_manifest "D" (Manifest.mk "D" [("p", pkgCex)])) "p" "t" ≠
      some (true, "a\nb", "h") := by
  refine ⟨by decide, by decide, by decide, by decide⟩

end RustBuildbot
